import Mathlib

/-!
# Lobster builtins: vector queries and mutations

A shallow embedding of builtins of `dev/src/builtins.cpp` (`KeyCompare`,
`binarysearch`, `slice`, `replace`, `insert`, `remove`, `removeobj`, `equal`,
`append`, `copy`, the `VECTOROP` transforms, `tokenize`, `number2string`,
`pop`, `top`) together with theorems about them.

Conventions of the embedding:

* a runtime `Value` is a tagged datum; a vector value carries its declared
  element type and the sequence of its elements.  Reference counts do not
  influence the contents computed by these builtins, so `INC`, `DEC` and
  `DECRT` are left out of the contents model; where the identity of a vector
  object matters (`removeobj`, `equal`) a value comes with the address of its
  heap object (`Ref`), and the ownership of heap objects is modelled on its
  own by a heap of reference-counted objects (`Heap`, `INC`, `DEC`) for `pop`
  and `top`;
* the C++ type `int` is a 32-bit two's complement integer.  Program integers
  are Lean `Int`s and every `+`/`-` that can leave the 32-bit range is
  wrapped explicitly with `wrapInt`;
* `g_vm->BuiltinError(msg)` unwinds the running builtin: a builtin returns
  `Except Abort _` and the error message is recorded in the `Abort`;
* loops whose end is not evident from their header are unrolled by a fuel
  argument; running out of fuel is the abort `Abort.OutOfFuel`.  A theorem
  about such a loop proves either that the fuel given suffices or that no
  amount of fuel does.
-/

namespace Lobster

/-! ## Data model -/

/-- Modelled from the spec: the tag of a runtime value.  The enumeration is
declared in `vmdata.h`; the builtins name `V_NIL`, `V_INT`, `V_FLOAT`,
`V_STRING` and `V_VECTOR`, the spec adds the resource handles. -/
inductive ValueType
  | V_NIL
  | V_INT
  | V_FLOAT
  | V_STRING
  | V_VECTOR
  | V_RESOURCE
  deriving DecidableEq, Repr

/-- Modelled from the spec: a tagged runtime value (`struct Value` of
`vmdata.h`).  `ival` is a 32-bit `int`, `bits` is the IEEE-754 single
precision bit pattern of `fval`, `bytes` are the bytes of the string object
(without the terminating NUL), and a vector carries its declared element
type and its elements. -/
inductive Value
  | nil
  | int (ival : Int)
  | float (bits : Nat)
  | str (bytes : List (Fin 256))
  | vec (type : ValueType) (elems : List Value)
  | resource (handle : Nat)

/-- The field `Value::type`. -/
def Value.type : Value → ValueType
  | .nil => .V_NIL
  | .int _ => .V_INT
  | .float _ => .V_FLOAT
  | .str _ => .V_STRING
  | .vec _ _ => .V_VECTOR
  | .resource _ => .V_RESOURCE

/-- Messages passed to `g_vm->BuiltinError` by the builtins modelled here. -/
inductive ErrorMsg
  /-- Message "binary search: key type doesn't match type of vector elements" -/
  | keyTypeMismatch
  /-- Message "binary search: illegal key type" -/
  | illegalKeyType
  /-- Message "replace: index out of range" -/
  | replaceRange
  /-- Message "insert: index or n out of range" -/
  | insertRange
  /-- Message "remove: index or n out of range" -/
  | removeRange
  /-- Message "slice: values out of range" -/
  | sliceRange
  /-- Message "number2string: values out of range" -/
  | number2stringRange
  /-- Message "<name> requires numeric vector argument" of the `VECTOROP` builtins -/
  | numericVector
  /-- Message "pop: empty vector" -/
  | popEmpty
  /-- Message "top: empty vector" -/
  | topEmpty
  deriving DecidableEq, Repr

/-- Ways in which a builtin does not return normally. -/
inductive Abort
  /-- `g_vm->BuiltinError(msg)` was called. -/
  | BuiltinError (msg : ErrorMsg)
  /-- A vector method was used outside the storage of the vector it reads
  or writes (the C++ behaviour is undefined). -/
  | OutOfBounds
  /-- The fuel of a loop model ran out. -/
  | OutOfFuel
  /-- A heap object was used after its reference count had reached zero and
  its backing store had been freed (the C++ behaviour is undefined). -/
  | UseAfterFree
  deriving DecidableEq, Repr

/-- Outcome of a builtin. -/
abbrev Result (α : Type) := Except Abort α

/-- Two's complement wrap-around of a mathematical integer to a 32-bit `int`. -/
def wrapInt (x : Int) : Int := (x + 2147483648) % 4294967296 - 2147483648

/-- The values of a 32-bit `int`. -/
def isInt32 (x : Int) : Prop := -2147483648 ≤ x ∧ x < 2147483648

/-- Modelled from the spec: a vector heap object (`LVector` of `vmdata.h`):
the declared element type and the stored elements. `len` is the number of
stored elements. -/
structure LVector where
  type : ValueType
  elems : List Value

namespace LVector

/-- The field `len`. -/
def len (v : LVector) : Int := (v.elems.length : Int)

/-- Modelled from the spec: element access `v->at(i)`.  It is defined for
`0 ≤ i < len` only. -/
def elemAt (v : LVector) (i : Int) : Result Value :=
  if 0 ≤ i then
    match v.elems[i.toNat]? with
    | some x => pure x
    | none => throw Abort.OutOfBounds
  else throw Abort.OutOfBounds

/-- Modelled from the spec: `nv->append(from, start, amount)` copies the run
of `amount` elements of `from` that begins at `start` to the end of `nv`.
The run has to lie inside `from`. -/
def append (nv src : LVector) (start amount : Int) : Result LVector :=
  if 0 ≤ start ∧ 0 ≤ amount ∧ start + amount ≤ src.len then
    pure { nv with elems := nv.elems ++ (src.elems.drop start.toNat).take amount.toNat }
  else throw Abort.OutOfBounds

/-- Modelled from the spec: `v->insert(a, index, count)` inserts `count ≥ 1`
copies of `a` at `index`, `0 ≤ index ≤ len`, shifting the trailing elements
upward. -/
def insert (v : LVector) (a : Value) (index count : Int) : Result LVector :=
  if 0 ≤ index ∧ index ≤ v.len ∧ 1 ≤ count then
    pure { v with elems := v.elems.take index.toNat ++ List.replicate count.toNat a
                            ++ v.elems.drop index.toNat }
  else throw Abort.OutOfBounds

/-- Modelled from the spec: `v->remove(index, count)` removes `count ≥ 1`
contiguous elements starting at `index` (`0 ≤ index`, `index + count ≤ len`),
shifting the following elements down, and returns the first removed
element. -/
def remove (v : LVector) (index count : Int) : Result (Value × LVector) :=
  if 0 ≤ index ∧ 1 ≤ count ∧ index + count ≤ v.len then
    match v.elems[index.toNat]? with
    | some x =>
        pure (x, { v with elems := v.elems.take index.toNat
                                    ++ v.elems.drop (index.toNat + count.toNat) })
    | none => throw Abort.OutOfBounds
  else throw Abort.OutOfBounds

/-- Modelled from the spec: writing through the reference `v->at(i)`
(`dest = a`). -/
def setAt (v : LVector) (i : Int) (a : Value) : Result LVector :=
  if 0 ≤ i ∧ i < v.len then pure { v with elems := v.elems.set i.toNat a }
  else throw Abort.OutOfBounds

/-- Modelled from the spec: `v->push(a)` appends `a` at the end. -/
def push (v : LVector) (a : Value) : LVector :=
  { v with elems := v.elems ++ [a] }

end LVector

/-- Modelled from the spec: `g_vm->NewVector(capacity, type)` returns an
empty vector with the given declared element type; the capacity is a hint
that does not affect `len`. -/
def NewVector (_capacity : Int) (type : ValueType) : LVector :=
  { type := type, elems := [] }

/-! ## Key comparator -/

/-- IEEE-754 single precision: the bit pattern is a NaN. -/
def fltIsNaN (bits : Nat) : Bool :=
  decide ((bits / 8388608) % 256 = 255) && decide (bits % 8388608 ≠ 0)

/-- IEEE-754 single precision: sign and magnitude of a bit pattern as one
integer, so that the order of these integers is the order of the numbers
(both zeros map to 0). -/
def fltKey (bits : Nat) : Int :=
  if (bits / 2147483648) % 2 = 1 then -((bits % 2147483648 : Nat) : Int)
  else ((bits % 2147483648 : Nat) : Int)

/-- The C++ comparison `a.fval < b.fval` on bit patterns. -/
def fltLt (a b : Nat) : Bool :=
  !fltIsNaN a && !fltIsNaN b && decide (fltKey a < fltKey b)

/-- The libc function `strcmp` on the NUL-terminated buffers of two string
objects: bytes are compared as `unsigned char` up to the first difference or
the first NUL; a stored byte sequence is followed by its terminating NUL. -/
def strcmp : List (Fin 256) → List (Fin 256) → Int
  | [], [] => 0
  | [], y :: _ => 0 - (y.val : Int)
  | x :: _, [] => (x.val : Int)
  | x :: xs, y :: ys =>
      if x ≠ y then (x.val : Int) - (y.val : Int)
      else if x.val = 0 then 0
      else strcmp xs ys

/-- `int KeyCompare(const Value &a, const Value &b, bool rec = false)`. -/
def KeyCompare (a b : Value) (rec : Bool) : Result Int :=
  if a.type ≠ b.type then throw (Abort.BuiltinError .keyTypeMismatch)
  else
    match a, b with
    | .int x, .int y => pure (if x < y then -1 else if x > y then 1 else 0)
    | .float x, .float y => pure (if fltLt x y then -1 else if fltLt y x then 1 else 0)
    | .str s, .str t => pure (strcmp s t)
    | .vec _ (x :: _), .vec _ (y :: _) =>
        match rec with
        | false => KeyCompare x y true
        | true => throw (Abort.BuiltinError .illegalKeyType)
    | _, _ => throw (Abort.BuiltinError .illegalKeyType)

/-! ## Builtins -/

/-- The builtin `replace(xs, i, x)`. -/
def replace (l : LVector) (i : Int) (a : Value) : Result LVector := do
  if i < 0 ∨ i ≥ l.len then throw (Abort.BuiltinError .replaceRange)
  let nv := NewVector l.len l.type
  let nv ← nv.append l 0 l.len
  nv.setAt i a

/-- The builtin `insert(xs, i, x, n)`; the vector is changed in place and
returned. -/
def insert (l : LVector) (i : Int) (a : Value) (n : Int) : Result LVector := do
  if n < 0 ∨ i < 0 ∨ i > l.len then throw (Abort.BuiltinError .insertRange)
  l.insert a i (max n 1)

/-- The builtin `remove(xs, i, n)`: the returned value together with the
vector as it is left behind. -/
def remove (l : LVector) (i n : Int) : Result (Value × LVector) := do
  let amount := max n 1
  if n < 0 ∨ amount > l.len ∨ i < 0 ∨ i > wrapInt (l.len - amount) then
    throw (Abort.BuiltinError .removeRange)
  l.remove i amount

/-- The builtin `slice(xs, start, size)`. -/
def slice (l : LVector) (s e : Int) : Result LVector := do
  let size := e
  let size := if size < 0 then wrapInt (l.len + size) else size
  let start := s
  let start := if start < 0 then wrapInt (l.len + start) else start
  if start < 0 ∨ wrapInt (start + size) > l.len then
    throw (Abort.BuiltinError .sliceRange)
  let nv := NewVector size .V_VECTOR
  nv.append l start size

/-- First inner loop of `binarysearch`:
`while (i && !KeyCompare(key, l.vval->at(i - 1))) { i--; size++; }`. -/
def expandLeft (l : LVector) (key : Value) : Nat → Int → Int → Result (Int × Int)
  | 0, _, _ => throw Abort.OutOfFuel
  | fuel + 1, i, size =>
      if i ≠ 0 then do
        let x ← l.elemAt (i - 1)
        let comp ← KeyCompare key x false
        if comp = 0 then expandLeft l key fuel (i - 1) (size + 1) else pure (i, size)
      else pure (i, size)

/-- Second inner loop of `binarysearch`:
`while (i + size < l.vval->len && !KeyCompare(key, l.vval->at(i + size))) { size++; }`. -/
def expandRight (l : LVector) (key : Value) : Nat → Int → Int → Result (Int × Int)
  | 0, _, _ => throw Abort.OutOfFuel
  | fuel + 1, i, size =>
      if i + size < l.len then do
        let x ← l.elemAt (i + size)
        let comp ← KeyCompare key x false
        if comp = 0 then expandRight l key fuel i (size + 1) else pure (i, size)
      else pure (i, size)

/-- The `for (;;)` loop of `binarysearch` on the window variables `i` and
`size`; the result is the pair (`size`, `i`) with which the loop is left.
`size / 2` is the truncating division of C++.  Every value computed here
lies between 0 and `len` when the loop is entered with a window inside the
vector, so the 32-bit arithmetic never wraps. -/
def searchLoop (l : LVector) (key : Value) : Nat → Int → Int → Result (Int × Int)
  | 0, _, _ => throw Abort.OutOfFuel
  | fuel + 1, i, size =>
      if size = 0 then pure (size, i)
      else do
        let mid := Int.tdiv size 2
        let comp ← (do let x ← l.elemAt (i + mid); KeyCompare key x false)
        if comp ≠ 0 then
          if comp < 0 then searchLoop l key fuel i mid
          else searchLoop l key fuel (i + (mid + 1)) (size - (mid + 1))
        else do
          let (i1, size1) ← expandLeft l key (l.elems.length + 1) (i + mid) 1
          let (i2, size2) ← expandRight l key (l.elems.length + 1) i1 size1
          pure (size2, i2)

/-- The builtin `binarysearch(xs, key)`: the pair of its two return values,
first the number of matches (`size`, pushed first), then the index `i`. -/
def binarysearch (l : LVector) (key : Value) : Result (Int × Int) :=
  searchLoop l key (l.elems.length + 1) 0 l.len

/-- The vector of `Int` values with the given contents. -/
def intVector (type : ValueType) (xs : List Int) : LVector :=
  { type := type, elems := xs.map Value.int }

/-- The builtin `append(xs, ys)`. -/
def append (v1 v2 : LVector) : Result LVector := do
  let nv := NewVector (wrapInt (v1.len + v2.len)) .V_VECTOR
  let nv ← nv.append v1 0 v1.len
  nv.append v2 0 v2.len

/-- The builtin `copy(xs)`. -/
def copy (v : LVector) : Result LVector := do
  let nv := NewVector v.len v.type
  nv.append v 0 v.len

/-! ### Equality and `removeobj` -/

/-- The C++ comparison `a.fval == b.fval` on bit patterns. -/
def fltEq (a b : Nat) : Bool :=
  !fltIsNaN a && !fltIsNaN b && decide (fltKey a = fltKey b)

mutual
/-- Modelled from the spec: the deep structural equality by value of spec 4.3
(`Value::Equal` of `vmdata.h` with `structural` set): values of different
kinds are different, scalars and strings are compared by value, vectors
element by element. -/
def Value.structEqual : Value → Value → Bool
  | .nil, .nil => true
  | .int x, .int y => decide (x = y)
  | .float x, .float y => fltEq x y
  | .str s, .str t => decide (s = t)
  | .vec _ xs, .vec _ ys => structEqualList xs ys
  | .resource h, .resource k => decide (h = k)
  | _, _ => false
/-- Modelled from the spec: deep structural equality of two element
sequences. -/
def structEqualList : List Value → List Value → Bool
  | [], [] => true
  | x :: xs, y :: ys => Value.structEqual x y && structEqualList xs ys
  | _, _ => false
end

/-- Modelled from the spec: a value as an argument or a vector slot holds it
when the identity of heap objects matters: the contents `val` and the address
`addr` of the heap object that the handle `vval` points to.  Only vectors are
compared by address; two handles with the same address have the same
contents. -/
structure Ref where
  addr : Nat
  val : Value

/-- Modelled from the spec: `a.Equal(o, structural)` of `vmdata.h`.  With
`structural` set it is the deep equality by value of spec 4.3.  Without it,
it is the `==` of the language, which, in the words of the doc string of the
builtin `equal`, "is only true for vectors/objects if they are the same
object"; scalars and strings are compared by value in both cases. -/
def Ref.Equal (a o : Ref) (structural : Bool) : Bool :=
  match a.val, o.val with
  | .vec _ _, .vec _ _ =>
      decide (a.addr = o.addr) || (structural && a.val.structEqual o.val)
  | x, y => x.structEqual y

/-- The builtin `equal(a, b)`: `Value(a.Equal(b, true))`. -/
def equal (a b : Ref) : Value :=
  .int (if a.Equal b true then 1 else 0)

/-- Modelled from the spec: element access `v->at(i)` on the slots of a
vector seen with their identities; as `LVector.elemAt`. -/
def refAt (elems : List Ref) (i : Int) : Result Ref :=
  if 0 ≤ i then
    match elems[i.toNat]? with
    | some x => pure x
    | none => throw Abort.OutOfBounds
  else throw Abort.OutOfBounds

/-- Modelled from the spec: `v->remove(index, count)` on the slots of a
vector seen with their identities; as `LVector.remove`. -/
def refRemove (elems : List Ref) (index count : Int) : Result (Ref × List Ref) :=
  if 0 ≤ index ∧ 1 ≤ count ∧ index + count ≤ (elems.length : Int) then
    match elems[index.toNat]? with
    | some x => pure (x, elems.take index.toNat ++ elems.drop (index.toNat + count.toNat))
    | none => throw Abort.OutOfBounds
  else throw Abort.OutOfBounds

/-- The loop of the builtin `removeobj`:
`for (int i = 0; i < l.vval->len; i++) if (l.vval->at(i).Equal(o, false))
{ l.vval->remove(i--, 1).DEC(); removed++; }`
on the slots of the vector, the index `i` and the counter `removed`. -/
def removeobjLoop (o : Ref) : Nat → List Ref → Int → Int → Result (Int × List Ref)
  | 0, _, _, _ => throw Abort.OutOfFuel
  | fuel + 1, elems, i, removed =>
      if i < (elems.length : Int) then do
        let x ← refAt elems i
        if x.Equal o false then do
          let r ← refRemove elems i 1
          removeobjLoop o fuel r.2 (i - 1 + 1) (removed + 1)
        else removeobjLoop o fuel elems (i + 1) removed
      else pure (removed, elems)

/-- The builtin `removeobj(xs, obj)`: the returned count together with the
slots of the vector as they are left behind. -/
def removeobj (elems : List Ref) (o : Ref) : Result (Int × List Ref) :=
  removeobjLoop o (elems.length + 1) elems 0 0

/-- The slots of a vector of `Int` values (scalars have no heap object). -/
def intRefs (xs : List Int) : List Ref :=
  xs.map (fun x => { addr := 0, val := .int x })

/-! ### Elementwise transform -/

/-- The line `if (otype == V_FLOAT && f.type == V_INT) f = Value(float(f.ival));`
of `VECTOROP`; `int2float` is the conversion `float(int)` to a bit pattern. -/
def coerceElem (int2float : Int → Nat) (otype : ValueType) (f : Value) : Value :=
  match f with
  | .int i => if otype = .V_FLOAT then .float (int2float i) else f
  | _ => f

/-- The `for` loop of the macro `VECTOROP` over the elements of the argument
in order, `v` being the vector built so far.  `op` is the operation of the
builtin on the (coerced) element `f`, for instance `int(ceilf(f.fval))`. -/
def vectorOpLoop (int2float : Int → Nat) (op : Value → Value) (otype : ValueType) :
    List Value → LVector → Result LVector
  | [], v => pure v
  | f :: rest, v =>
      let f := coerceElem int2float otype f
      if f.type ≠ otype then throw (Abort.BuiltinError .numericVector)
      else vectorOpLoop int2float op otype rest (v.push (op f))

/-- The macro `VECTOROP(name, op, otype)` as the body of a builtin with the
argument `a`. -/
def VECTOROP (int2float : Int → Nat) (op : Value → Value) (otype : ValueType) (a : Value) :
    Result LVector :=
  match a with
  | .vec type elems =>
      vectorOpLoop int2float op otype elems (NewVector (elems.length : Int) type)
  | _ => throw (Abort.BuiltinError .numericVector)

/-! ### Strings -/

/-- The bytes of a string literal. -/
def bytesOf (s : String) : List (Fin 256) :=
  s.toList.map (fun c => Fin.ofNat c.toNat)

/-- The NUL-terminated string `sval->str()` of a string object: its bytes up
to the first NUL. -/
def cstr (bytes : List (Fin 256)) : List (Fin 256) :=
  bytes.takeWhile (fun c => decide (c ≠ 0))

/-- The libc function `strspn`: the length of the longest prefix of `p` made of
bytes of `set`. -/
def strspn (p set : List (Fin 256)) : Nat :=
  (p.takeWhile (fun c => set.contains c)).length

/-- The libc function `strcspn`: the length of the longest prefix of `p` without
any byte of `set`. -/
def strcspn (p set : List (Fin 256)) : Nat :=
  (p.takeWhile (fun c => !set.contains c)).length

/-- The lambda `strspn1` of `tokenize`:
`[](char c, const char *set) { while (*set) if (*set == c) return 1; return 0; }`.
The pointer `set` is not advanced by the loop. -/
def strspn1 (c : Fin 256) (set : List (Fin 256)) : Nat → Result Bool
  | 0 => throw Abort.OutOfFuel
  | fuel + 1 =>
      match set with
      | [] => pure false
      | x :: _ => if x = c then pure true else strspn1 c set fuel

/-- The loop `while (end > p && strspn1(end[-1], ws)) end--;` of `tokenize`;
`e` is the offset `end - p`, and every call of `strspn1` gets the fuel `fuel0`. -/
def trimEnd (p ws : List (Fin 256)) (fuel0 : Nat) : Nat → Nat → Result Nat
  | 0, _ => throw Abort.OutOfFuel
  | fuel + 1, e =>
      if e > 0 then
        match p[e - 1]? with
        | some c => do
            let r ← strspn1 c ws fuel0
            if r then trimEnd p ws fuel0 fuel (e - 1) else pure e
        | none => throw Abort.OutOfBounds
      else pure e

/-- The loop `while (*p)` of `tokenize`; `p` is the rest of the input that the
pointer `p` points to and `v` the vector built so far. -/
def tokenizeLoop (dl ws : List (Fin 256)) (fuel0 : Nat) :
    Nat → List (Fin 256) → LVector → Result LVector
  | 0, _, _ => throw Abort.OutOfFuel
  | fuel + 1, p, v =>
      if p ≠ [] then do
        let delim := strcspn p dl
        let e ← trimEnd p ws fuel0 fuel0 delim
        let v := v.push (.str (p.take e))
        let p := p.drop delim
        let p := p.drop (strspn p dl)
        let p := p.drop (strspn p ws)
        tokenizeLoop dl ws fuel0 fuel p v
      else pure v

/-- The builtin `tokenize(s, delimiters, whitespace)`; every loop gets the
fuel `fuel`. -/
def tokenize (fuel : Nat) (s delims whitespace : List (Fin 256)) : Result LVector :=
  let v := NewVector 0 .V_VECTOR
  let ws := cstr whitespace
  let dl := cstr delims
  let p := cstr s
  let p := p.drop (strspn p ws)
  tokenizeLoop dl ws fuel fuel p v

/-- The table `from` of `number2string`, "0123456789ABCDEFGHIJKLMNOPQRSTUVWXYZ",
indexed by a digit. -/
def digitChar (d : Nat) : Fin 256 :=
  (bytesOf "0123456789ABCDEFGHIJKLMNOPQRSTUVWXYZ").getD d 0

/-- The loop of `number2string`:
`while (i || (int)s.length() < mc.ival) { s.insert(0, 1, from[i % b.ival]); i /= b.ival; }`
on the `uint` variable `i` and the string `s`. -/
def number2stringLoop (b mc : Int) : Nat → Nat → List (Fin 256) → Result (List (Fin 256))
  | 0, _, _ => throw Abort.OutOfFuel
  | fuel + 1, i, s =>
      if i ≠ 0 ∨ (s.length : Int) < mc then
        number2stringLoop b mc fuel (i / b.toNat) (digitChar (i % b.toNat) :: s)
      else pure s

/-- The builtin `number2string(number, base, minchars)`; `(uint)n.ival` is `n`
modulo 2^32. -/
def number2string (n b mc : Int) : Result Value := do
  if b < 2 ∨ b > 36 ∨ mc > 32 then throw (Abort.BuiltinError .number2stringRange)
  let i := (n % 4294967296).toNat
  let s ← number2stringLoop b mc (32 + mc.toNat + 1) i []
  pure (.str s)

/-- The digit that a character of the table of `number2string` stands for. -/
def digitValue (c : Fin 256) : Option Nat :=
  if (bytesOf "0123456789ABCDEFGHIJKLMNOPQRSTUVWXYZ").contains c then
    some ((bytesOf "0123456789ABCDEFGHIJKLMNOPQRSTUVWXYZ").indexOf c)
  else none

/-! ### Ownership: reference counts, `pop` and `top` -/

/-- Modelled from the spec: a value as far as ownership is concerned: a scalar,
which carries no heap reference, or a handle to the heap object at an
address. -/
inductive Handle
  | scalar
  | obj (addr : Nat)
  deriving DecidableEq, Repr

/-- Modelled from the spec: a reference-counted heap object (a string or a
vector): its reference count, whether its backing store has been freed, and
the values it holds (none for a string). -/
structure HeapObj where
  refc : Int
  freed : Bool
  elems : List Handle
  deriving DecidableEq, Repr

/-- The heap: the heap objects by address. -/
abbrev Heap := List HeapObj

/-- Modelled from the spec: `v.INC()`: "increment adds one to refcount and
returns the same handle"; a scalar has no count. -/
def INC (h : Heap) (v : Handle) : Result Heap :=
  match v with
  | .scalar => pure h
  | .obj a =>
      match h[a]? with
      | none => throw Abort.OutOfBounds
      | some o =>
          if o.freed then throw Abort.UseAfterFree
          else pure (h.set a { o with refc := o.refc + 1 })

/-- Modelled from the spec: `v.DEC()`: "decrement subtracts one; at zero, all
contained values are released and the backing store is freed".  The fuel
bounds the depth of the nested releases. -/
def DEC : Nat → Heap → Handle → Result Heap
  | _, h, .scalar => pure h
  | 0, _, .obj _ => throw Abort.OutOfFuel
  | fuel + 1, h, .obj a =>
      match h[a]? with
      | none => throw Abort.OutOfBounds
      | some o =>
          if o.freed then throw Abort.UseAfterFree
          else
            let h1 := h.set a { o with refc := o.refc - 1 }
            if o.refc - 1 = 0 then do
              let h2 ← o.elems.foldlM (fun hh e => DEC fuel hh e) h1
              match h2[a]? with
              | none => throw Abort.OutOfBounds
              | some o2 => pure (h2.set a { o2 with freed := true })
            else pure h1

/-- The builtin `pop(xs)` on the heap; `l` is the address of the vector object
of the argument.  The result is the returned value and the heap. -/
def pop (fuel : Nat) (h : Heap) (l : Nat) : Result (Handle × Heap) :=
  match h[l]? with
  | none => throw Abort.OutOfBounds
  | some vobj =>
      if vobj.elems.length = 0 then do
        let _ ← DEC fuel h (.obj l)
        throw (Abort.BuiltinError .popEmpty)
      else
        match vobj.elems.getLast? with
        | none => throw Abort.OutOfBounds
        | some v => do
            let h1 := h.set l { vobj with elems := vobj.elems.dropLast }
            let h2 ← DEC fuel h1 (.obj l)
            pure (v, h2)

/-- The builtin `top(xs)` on the heap; `l` is the address of the vector object
of the argument: `auto v = l.vval->top(); l.DEC(); return v.INC();`.  The
result is the returned value and the heap. -/
def top (fuel : Nat) (h : Heap) (l : Nat) : Result (Handle × Heap) :=
  match h[l]? with
  | none => throw Abort.OutOfBounds
  | some vobj =>
      if vobj.elems.length = 0 then do
        let _ ← DEC fuel h (.obj l)
        throw (Abort.BuiltinError .topEmpty)
      else
        match vobj.elems.getLast? with
        | none => throw Abort.OutOfBounds
        | some v => do
            let h1 ← DEC fuel h (.obj l)
            let h2 ← INC h1 v
            pure (v, h2)

/-! ## Notions used in the statements -/

/-- The element of an `Int` list at a position (0 outside the list). -/
def valAt (xs : List Int) (j : Nat) : Int := (xs[j]?).getD 0

/-- Ascending order of an `Int` list, by positions. -/
def SortedAt (xs : List Int) : Prop :=
  ∀ a b : Nat, a ≤ b → b < xs.length → valAt xs a ≤ valAt xs b

/-- What `binarysearch` establishes about a sorted vector: `count` and `start`
delimit the run of the elements equal to `k`. -/
def IsRun (xs : List Int) (k count start : Int) : Prop :=
  0 ≤ start ∧ 0 ≤ count ∧ start + count ≤ xs.length ∧
  (∀ j : Nat, (j : Int) < start → j < xs.length → valAt xs j < k) ∧
  (∀ j : Nat, start ≤ j → (j : Int) < start + count → valAt xs j = k) ∧
  (∀ j : Nat, start + count ≤ j → j < xs.length → k < valAt xs j)

/-- A probe of `binarysearch`: the comparison of the key with the element at
an index, `KeyCompare(key, l.vval->at(i))`. -/
def probe (l : LVector) (key : Value) (i : Int) : Result Int := do
  let x ← l.elemAt i
  KeyCompare key x false

/-- Lexicographic comparison of two byte sequences by their bytes: -1, 0 or 1
as the first is smaller than, equal to or greater than the second. -/
def lexCompare : List (Fin 256) → List (Fin 256) → Int
  | [], [] => 0
  | [], _ :: _ => -1
  | _ :: _, [] => 1
  | x :: xs, y :: ys => if x < y then -1 else if y < x then 1 else lexCompare xs ys

/-- The vector of the rows `[k, ...]` given by their declared element type,
their `Int` first element and their other elements. -/
def rowVector (type : ValueType) (rows : List (ValueType × Int × List Value)) : LVector :=
  { type := type, elems := rows.map (fun r => Value.vec r.1 (Value.int r.2.1 :: r.2.2)) }

/-- Every probe at an index inside the vector returns a comparison result. -/
def ProbesReturn (l : LVector) (key : Value) : Prop :=
  ∀ j : Int, 0 ≤ j → j < l.len → ∃ c, probe l key j = .ok c

/-- The outcome of a loop of `binarysearch` that stayed inside the vector and
within its fuel: it returned a pair for which `P` holds, or it was stopped by
an error of `KeyCompare` at some probe. -/
def SafeOutcome (l : LVector) (key : Value) (P : Int → Int → Prop)
    (r : Result (Int × Int)) : Prop :=
  (∃ a b, r = .ok (a, b) ∧ P a b) ∨
  ((∃ m, r = .error (.BuiltinError m)) ∧ ¬ ProbesReturn l key)

/-! ## The key comparator -/

theorem KeyCompare_int (x y : Int) (rec : Bool) :
    KeyCompare (.int x) (.int y) rec = .ok (if x < y then -1 else if x > y then 1 else 0) := by
  simp [KeyCompare, Value.type, pure, Except.pure]

/-- C5: `KeyCompare` reports the type-mismatch error whenever the kinds of its
arguments differ; on two `Int` values it returns a negative number exactly
when the first is smaller, zero exactly when they are equal and a positive
number exactly when the first is greater, and swapping the arguments flips
the sign of the result. -/
theorem KeyCompare_contract (a b : Value) (x y : Int) (rec : Bool) :
    (a.type ≠ b.type → KeyCompare a b rec = .error (.BuiltinError .keyTypeMismatch)) ∧
    ∃ c d : Int, KeyCompare (.int x) (.int y) rec = .ok c ∧
      KeyCompare (.int y) (.int x) rec = .ok d ∧
      (c < 0 ↔ x < y) ∧ (c = 0 ↔ x = y) ∧ (0 < c ↔ y < x) ∧ Int.sign d = - Int.sign c := by
  refine ⟨?_, ?_⟩
  · intro h
    unfold KeyCompare
    simp [h, throw, throwThe, MonadExceptOf.throw]
  · refine ⟨_, _, KeyCompare_int x y rec, KeyCompare_int y x rec, ?_, ?_, ?_, ?_⟩
    · split_ifs <;> omega
    · split_ifs <;> constructor <;> intro h0 <;> first | omega | cases h0
    · split_ifs <;> omega
    · rcases lt_trichotomy x y with h | h | h
      · have h2 : ¬ y < x := by omega
        simp [h, h2]
      · subst h; simp
      · have h2 : ¬ x < y := by omega
        simp [h, h2]

theorem KeyCompare_contract_witness :
    Value.type (.int 1) ≠ Value.type (.float 0) ∧
    KeyCompare (.int 1) (.float 0) false = .error (.BuiltinError .keyTypeMismatch) :=
  ⟨by decide, (KeyCompare_contract (.int 1) (.float 0) 0 0 false).1 (by decide)⟩

/-- C6: on two vectors `KeyCompare` recurses exactly one level: for two
non-empty vectors the result is `KeyCompare` of their first elements (made with
`rec` set); when either vector is empty, or when the call is itself the
recursive one, or when the first elements are vectors again, the illegal key
type error is reported; two values of equal kind other than Int, Float, String
or Vector report the illegal key type error as well. -/
theorem KeyCompare_vector_contract (t u t1 u1 : ValueType) (x y a b : Value)
    (xs ys es es1 fs1 : List Value) (rec : Bool) :
    KeyCompare (.vec t (x :: xs)) (.vec u (y :: ys)) false = KeyCompare x y true ∧
    KeyCompare (.vec t []) (.vec u es) rec = .error (.BuiltinError .illegalKeyType) ∧
    KeyCompare (.vec t es) (.vec u []) rec = .error (.BuiltinError .illegalKeyType) ∧
    KeyCompare (.vec t es) (.vec u es1) true = .error (.BuiltinError .illegalKeyType) ∧
    KeyCompare (.vec t (.vec t1 es1 :: xs)) (.vec u (.vec u1 fs1 :: ys)) false
      = .error (.BuiltinError .illegalKeyType) ∧
    (a.type = b.type → a.type ≠ .V_INT → a.type ≠ .V_FLOAT → a.type ≠ .V_STRING →
      a.type ≠ .V_VECTOR → KeyCompare a b rec = .error (.BuiltinError .illegalKeyType)) := by
  refine ⟨?_, ?_, ?_, ?_, ?_, ?_⟩
  · conv => lhs; unfold KeyCompare
    simp [Value.type]
  · unfold KeyCompare
    simp [Value.type, throw, throwThe, MonadExceptOf.throw]
  · unfold KeyCompare
    cases es <;> simp [Value.type, throw, throwThe, MonadExceptOf.throw]
  · unfold KeyCompare
    cases es <;> cases es1 <;> simp [Value.type, throw, throwThe, MonadExceptOf.throw]
  · conv => lhs; unfold KeyCompare
    simp only [Value.type]
    unfold KeyCompare
    cases es1 <;> cases fs1 <;> simp [Value.type, throw, throwThe, MonadExceptOf.throw]
  · intro h h1 h2 h3 h4
    unfold KeyCompare
    cases a <;> cases b <;> simp_all [Value.type, throw, throwThe, MonadExceptOf.throw]

theorem KeyCompare_vector_contract_witness :
    Value.type .nil = Value.type .nil ∧
    KeyCompare .nil .nil false = .error (.BuiltinError .illegalKeyType) :=
  ⟨rfl, (KeyCompare_vector_contract .V_INT .V_INT .V_INT .V_INT .nil .nil .nil .nil
      [] [] [] [] [] false).2.2.2.2.2 rfl (by decide) (by decide) (by decide) (by decide)⟩

/-! ## Binary search -/

theorem len_intVector (t : ValueType) (xs : List Int) :
    (intVector t xs).len = (xs.length : Int) := by
  simp [intVector, LVector.len]

theorem elemAt_intVector (t : ValueType) (xs : List Int) (i : Int)
    (h0 : 0 ≤ i) (h1 : i < xs.length) :
    (intVector t xs).elemAt i = .ok (.int (valAt xs i.toNat)) := by
  have h2 : i.toNat < xs.length := by omega
  simp [LVector.elemAt, intVector, h0, valAt, List.getElem?_map, List.getElem?_eq_getElem h2,
    pure, Except.pure]

/-- The comparison made by a probe of `binarysearch` at a valid index. -/
theorem probe_intVector (t : ValueType) (xs : List Int) (k : Int) (i : Int)
    (h0 : 0 ≤ i) (h1 : i < xs.length) :
    (do let x ← (intVector t xs).elemAt i; KeyCompare (.int k) x false)
      = (.ok (if k < valAt xs i.toNat then -1 else if k > valAt xs i.toNat then 1 else 0) :
          Result Int) := by
  rw [elemAt_intVector t xs i h0 h1]
  exact KeyCompare_int k (valAt xs i.toNat) false

theorem expandLeft_spec (t : ValueType) (xs : List Int) (k : Int) :
    ∀ (fuel : Nat) (i size : Int), 0 ≤ i → i ≤ xs.length → i < fuel →
      ∃ i2 : Int, expandLeft (intVector t xs) (.int k) fuel i size = .ok (i2, size + (i - i2)) ∧
        0 ≤ i2 ∧ i2 ≤ i ∧
        (∀ j : Nat, i2 ≤ j → (j : Int) < i → valAt xs j = k) ∧
        (∀ j : Nat, (j : Int) + 1 = i2 → valAt xs j ≠ k) := by
  intro fuel
  induction fuel with
  | zero => intro i size h0 h1 h2; omega
  | succ n ih =>
    intro i size h0 h1 h2
    unfold expandLeft
    by_cases hi : i = 0
    · subst hi
      refine ⟨0, by simp [pure, Except.pure], le_refl _, le_refl _, ?_, ?_⟩
      · intro j a b; omega
      · intro j a; omega
    · have e := elemAt_intVector t xs (i - 1) (by omega) (by omega)
      simp only [hi, ne_eq, not_false_eq_true, if_true, e, bind, Except.bind, KeyCompare_int]
      by_cases hk : valAt xs (i - 1).toNat = k
      · have hc : (if k < valAt xs (i - 1).toNat then (-1 : Int)
            else if k > valAt xs (i - 1).toNat then 1 else 0) = 0 := by
          rw [hk]; simp
        rw [hc]
        obtain ⟨i2, e2, a, b, c, d⟩ := ih (i - 1) (size + 1) (by omega) (by omega) (by omega)
        refine ⟨i2, ?_, a, by omega, ?_, d⟩
        · simp only [if_true, e2]
          congr 2; omega
        · intro j h3 h4
          by_cases hj : (j : Int) < i - 1
          · exact c j h3 hj
          · have : j = (i - 1).toNat := by omega
            rw [this]; exact hk
      · have hc : (if k < valAt xs (i - 1).toNat then (-1 : Int)
            else if k > valAt xs (i - 1).toNat then 1 else 0) ≠ 0 := by
          split_ifs <;> omega
        refine ⟨i, ?_, h0, le_refl _, ?_, ?_⟩
        · rw [if_neg hc]
          simp only [pure, Except.pure, sub_self, add_zero]
        · intro j a b; omega
        · intro j a
          have : j = (i - 1).toNat := by omega
          rw [this]; exact hk

theorem expandRight_spec (t : ValueType) (xs : List Int) (k : Int) :
    ∀ (fuel : Nat) (i size : Int), 0 ≤ i + size → i + size ≤ xs.length →
      (xs.length : Int) - (i + size) < fuel →
      ∃ s2 : Int, expandRight (intVector t xs) (.int k) fuel i size = .ok (i, s2) ∧
        size ≤ s2 ∧ i + s2 ≤ xs.length ∧
        (∀ j : Nat, i + size ≤ j → (j : Int) < i + s2 → valAt xs j = k) ∧
        (∀ j : Nat, (j : Int) = i + s2 → j < xs.length → valAt xs j ≠ k) := by
  intro fuel
  induction fuel with
  | zero => intro i size h0 h1 h2; omega
  | succ n ih =>
    intro i size h0 h1 h2
    unfold expandRight
    rw [len_intVector]
    by_cases hi : i + size < xs.length
    · have e := elemAt_intVector t xs (i + size) h0 hi
      simp only [hi, if_true, e, bind, Except.bind, KeyCompare_int]
      by_cases hk : valAt xs (i + size).toNat = k
      · have hc : (if k < valAt xs (i + size).toNat then (-1 : Int)
            else if k > valAt xs (i + size).toNat then 1 else 0) = 0 := by
          rw [hk]; simp
        rw [hc]
        obtain ⟨s2, e2, a, b, c, d⟩ := ih i (size + 1) (by omega) (by omega) (by omega)
        refine ⟨s2, ?_, by omega, b, ?_, d⟩
        · simp only [if_true, e2]
        · intro j h3 h4
          by_cases hj : i + (size + 1) ≤ (j : Int)
          · exact c j hj h4
          · have : j = (i + size).toNat := by omega
            rw [this]; exact hk
      · have hc : (if k < valAt xs (i + size).toNat then (-1 : Int)
            else if k > valAt xs (i + size).toNat then 1 else 0) ≠ 0 := by
          split_ifs <;> omega
        refine ⟨size, ?_, le_refl _, h1, ?_, ?_⟩
        · rw [if_neg hc]
          simp only [pure, Except.pure]
        · intro j a b; omega
        · intro j a _
          have : j = (i + size).toNat := by omega
          rw [this]; exact hk
    · refine ⟨size, ?_, le_refl _, h1, ?_, ?_⟩
      · rw [if_neg hi]
        simp only [pure, Except.pure]
      · intro j a b; omega
      · intro j a b; omega

/-- One turn of the `for (;;)` loop of `binarysearch` on a vector of `Int`s. -/
theorem searchLoop_step (t : ValueType) (xs : List Int) (k : Int) (fuel : Nat) (i size : Int)
    (h0 : 0 ≤ i) (hs : 0 < size) (h1 : i + size ≤ xs.length) :
    searchLoop (intVector t xs) (.int k) (fuel + 1) i size =
      if k < valAt xs (i + size / 2).toNat then
        searchLoop (intVector t xs) (.int k) fuel i (size / 2)
      else if valAt xs (i + size / 2).toNat < k then
        searchLoop (intVector t xs) (.int k) fuel (i + (size / 2 + 1)) (size - (size / 2 + 1))
      else
        (expandLeft (intVector t xs) (.int k) (xs.length + 1) (i + size / 2) 1 >>= fun r1 =>
          expandRight (intVector t xs) (.int k) (xs.length + 1) r1.1 r1.2 >>= fun r2 =>
            pure (r2.2, r2.1)) := by
  have hm : Int.tdiv size 2 = size / 2 := Int.tdiv_eq_ediv (by omega) (by omega)
  have hne : size ≠ 0 := by omega
  have e := probe_intVector t xs k (i + size / 2) (by omega) (by omega)
  conv => lhs; unfold searchLoop
  simp only [hm, hne, if_false]
  rw [e]
  simp only [bind, Except.bind]
  by_cases c1 : k < valAt xs (i + size / 2).toNat
  · simp [c1]
  · by_cases c2 : valAt xs (i + size / 2).toNat < k
    · simp [c1, c2]
    · simp only [c1, c2, if_false, gt_iff_lt, ne_eq, not_true_eq_false]
      simp [intVector]

theorem searchLoop_sorted (t : ValueType) (xs : List Int) (k : Int) (hs : SortedAt xs) :
    ∀ (fuel : Nat) (i size : Int), 0 ≤ i → 0 ≤ size → i + size ≤ xs.length → size < fuel →
      (∀ j : Nat, (j : Int) < i → j < xs.length → valAt xs j < k) →
      (∀ j : Nat, i + size ≤ j → j < xs.length → k < valAt xs j) →
      ∃ count start : Int,
        searchLoop (intVector t xs) (.int k) fuel i size = .ok (count, start) ∧
        IsRun xs k count start := by
  intro fuel
  induction fuel with
  | zero => intro i size h0 h1 h2 h3; omega
  | succ n ih =>
    intro i size h0 h1 h2 h3 lo hi
    by_cases hz : size = 0
    · subst hz
      refine ⟨0, i, ?_, h0, le_refl _, h2, lo, ?_, hi⟩
      · unfold searchLoop; simp [pure, Except.pure]
      · intro j a b; omega
    · have hpos : 0 < size := by omega
      rw [searchLoop_step t xs k n i size h0 hpos h2]
      have hmn : (i + size / 2).toNat < xs.length := by omega
      by_cases c1 : k < valAt xs (i + size / 2).toNat
      · rw [if_pos c1]
        apply ih i (size / 2) h0 (by omega) (by omega) (by omega) lo
        intro j a b
        have := hs (i + size / 2).toNat j (by omega) b
        omega
      · rw [if_neg c1]
        by_cases c2 : valAt xs (i + size / 2).toNat < k
        · rw [if_pos c2]
          apply ih (i + (size / 2 + 1)) (size - (size / 2 + 1)) (by omega) (by omega)
            (by omega) (by omega)
          · intro j a b
            have := hs j (i + size / 2).toNat (by omega) hmn
            omega
          · intro j a b
            exact hi j (by omega) b
        · rw [if_neg c2]
          have hk : valAt xs (i + size / 2).toNat = k := by omega
          obtain ⟨i2, e1, a1, a2, a3, a4⟩ := expandLeft_spec t xs k (xs.length + 1)
            (i + size / 2) 1 (by omega) (by omega) (by push_cast; omega)
          obtain ⟨s2, e2, b1, b2, b3, b4⟩ := expandRight_spec t xs k (xs.length + 1)
            i2 (1 + (i + size / 2 - i2)) (by omega) (by omega) (by push_cast; omega)
          refine ⟨s2, i2, ?_, a1, by omega, b2, ?_, ?_, ?_⟩
          · rw [e1]
            simp only [bind, Except.bind]
            rw [e2]
            simp only [pure, Except.pure]
          · intro j c d
            have h5 := hs j (i + size / 2).toNat (by omega) hmn
            by_cases hj : (j : Int) + 1 = i2
            · have := a4 j hj
              omega
            · have h6 := hs j (i2 - 1).toNat (by omega) (by omega)
              have h7 := hs (i2 - 1).toNat (i + size / 2).toNat (by omega) hmn
              have h8 := a4 (i2 - 1).toNat (by omega)
              omega
          · intro j c d
            by_cases hj : (j : Int) < i + size / 2
            · exact a3 j c hj
            · by_cases hj2 : (j : Int) = i + size / 2
              · have : j = (i + size / 2).toNat := by omega
                rw [this]; exact hk
              · exact b3 j (by omega) d
          · intro j c d
            have h5 := hs (i + size / 2).toNat j (by omega) d
            by_cases hj : (j : Int) = i2 + s2
            · have := b4 j hj d
              omega
            · have h6 := hs (i2 + s2).toNat j (by omega) d
              have h7 := hs (i + size / 2).toNat (i2 + s2).toNat (by omega) (by omega)
              have h8 := b4 (i2 + s2).toNat (by omega) (by omega)
              omega

theorem binarysearch_sorted (t : ValueType) (xs : List Int) (k : Int) (hs : SortedAt xs) :
    ∃ count start : Int,
      binarysearch (intVector t xs) (.int k) = .ok (count, start) ∧ IsRun xs k count start := by
  unfold binarysearch
  rw [len_intVector]
  have hl : (intVector t xs).elems.length = xs.length := by simp [intVector]
  rw [hl]
  apply searchLoop_sorted t xs k hs (xs.length + 1) 0 xs.length (le_refl _) (by omega)
    (by omega) (by push_cast; omega)
  · intro j a; omega
  · intro j a b; omega

theorem valAt_of_lt (xs : List Int) (j : Nat) (h : j < xs.length) : xs[j]? = some (valAt xs j) := by
  simp [valAt, List.getElem?_eq_getElem h]

theorem valAt_cons_succ (x : Int) (xs : List Int) (j : Nat) : valAt (x :: xs) (j + 1) = valAt xs j := by
  simp [valAt]

theorem valAt_cons_zero (x : Int) (xs : List Int) : valAt (x :: xs) 0 = x := by
  simp [valAt]

theorem sortedAt_of_sorted (xs : List Int) (hs : xs.Sorted (· ≤ ·)) : SortedAt xs := by
  intro a b hab hb
  have ha : a < xs.length := by omega
  have e1 : valAt xs a = xs[a] := by simp [valAt, List.getElem?_eq_getElem ha]
  have e2 : valAt xs b = xs[b] := by simp [valAt, List.getElem?_eq_getElem hb]
  rw [e1, e2]
  rcases Nat.eq_or_lt_of_le hab with h | h
  · subst h; exact le_refl _
  · exact (List.pairwise_iff_getElem.mp hs) a b ha hb h

/-- C1: on a vector of `Int`s sorted ascending `binarysearch` returns a pair
(count, start) with `start + count ≤ len`; every element at an index in
`[start, start + count)` equals the key, the element at `start - 1`, if there
is one, is smaller than the key, and the element at `start + count`, if
there is one, is greater than the key. -/
theorem binarysearch_run (t : ValueType) (xs : List Int) (k : Int)
    (hs : xs.Sorted (· ≤ ·)) :
    ∃ count start : Int,
      binarysearch (intVector t xs) (.int k) = .ok (count, start) ∧
      0 ≤ start ∧ 0 ≤ count ∧ start + count ≤ xs.length ∧
      (∀ j : Nat, start ≤ j → (j : Int) < start + count → xs[j]? = some k) ∧
      (∀ j : Nat, (j : Int) = start - 1 → ∃ v, xs[j]? = some v ∧ v < k) ∧
      (∀ j : Nat, (j : Int) = start + count → j < xs.length → ∃ v, xs[j]? = some v ∧ k < v) := by
  obtain ⟨count, start, e, h0, h1, h2, lo, mid, hi⟩ :=
    binarysearch_sorted t xs k (sortedAt_of_sorted xs hs)
  refine ⟨count, start, e, h0, h1, h2, ?_, ?_, ?_⟩
  · intro j a b
    rw [valAt_of_lt xs j (by omega), mid j a b]
  · intro j a
    exact ⟨valAt xs j, valAt_of_lt xs j (by omega), lo j (by omega) (by omega)⟩
  · intro j a b
    exact ⟨valAt xs j, valAt_of_lt xs j b, hi j (by omega) b⟩

theorem binarysearch_run_witness :
    ∃ count start : Int,
      binarysearch (intVector .V_INT [1, 3, 3, 3, 5, 7]) (.int 3) = .ok (count, start) ∧
      0 ≤ start ∧ 0 ≤ count ∧ start + count ≤ ([1, 3, 3, 3, 5, 7] : List Int).length ∧
      (∀ j : Nat, start ≤ j → (j : Int) < start + count →
        ([1, 3, 3, 3, 5, 7] : List Int)[j]? = some 3) ∧
      (∀ j : Nat, (j : Int) = start - 1 →
        ∃ v, ([1, 3, 3, 3, 5, 7] : List Int)[j]? = some v ∧ v < 3) ∧
      (∀ j : Nat, (j : Int) = start + count → j < ([1, 3, 3, 3, 5, 7] : List Int).length →
        ∃ v, ([1, 3, 3, 3, 5, 7] : List Int)[j]? = some v ∧ 3 < v) :=
  binarysearch_run .V_INT [1, 3, 3, 3, 5, 7] 3 (by decide)

theorem count_of_run (k : Int) : ∀ (xs : List Int) (s c : Nat), s + c ≤ xs.length →
    (∀ j, j < s → valAt xs j ≠ k) → (∀ j, s ≤ j → j < s + c → valAt xs j = k) →
    (∀ j, s + c ≤ j → j < xs.length → valAt xs j ≠ k) → xs.count k = c := by
  intro xs
  induction xs with
  | nil => intro s c h _ _ _; simp at h; simp [h.2]
  | cons x xs ih =>
    intro s c h lo mid hi
    simp only [List.length_cons] at h hi
    cases s with
    | succ s =>
      have hx : x ≠ k := by simpa [valAt_cons_zero] using lo 0 (by omega)
      rw [List.count_cons_of_ne hx.symm]
      apply ih s c (by omega)
      · intro j a; simpa [valAt_cons_succ] using lo (j + 1) (by omega)
      · intro j a b; simpa [valAt_cons_succ] using mid (j + 1) (by omega) (by omega)
      · intro j a b; simpa [valAt_cons_succ] using hi (j + 1) (by omega) (by omega)
    | zero =>
      cases c with
      | zero =>
        have hx : x ≠ k := by simpa [valAt_cons_zero] using hi 0 (by omega) (by omega)
        rw [List.count_cons_of_ne hx.symm]
        apply ih 0 0 (by omega)
        · intro j a; omega
        · intro j a b; omega
        · intro j a b; simpa [valAt_cons_succ] using hi (j + 1) (by omega) (by omega)
      | succ c =>
        have hx : x = k := by simpa [valAt_cons_zero] using mid 0 (by omega) (by omega)
        subst hx
        rw [List.count_cons_self]
        congr 1
        apply ih 0 c (by omega)
        · intro j a; omega
        · intro j a b; simpa [valAt_cons_succ] using mid (j + 1) (by omega) (by omega)
        · intro j a b; simpa [valAt_cons_succ] using hi (j + 1) (by omega) (by omega)

/-- C2: on a vector of `Int`s sorted ascending the count returned by
`binarysearch` is the number of elements equal to the key, and when it is
positive the returned start is the index of the first element equal to the
key; the three evaluations are those given with the contract. -/
theorem binarysearch_count (t : ValueType) (xs : List Int) (k : Int) :
    (xs.Sorted (· ≤ ·) →
      ∃ count start : Int,
        binarysearch (intVector t xs) (.int k) = .ok (count, start) ∧
        count = (xs.count k : Int) ∧ 0 ≤ start ∧
        (0 < count → xs[start.toNat]? = some k ∧
          ∀ j : Nat, (j : Int) < start → xs[j]? ≠ some k)) ∧
    binarysearch (intVector t [1, 3, 3, 3, 5, 7]) (.int 3) = .ok (3, 1) ∧
    binarysearch (intVector t [1, 3, 3, 3, 5, 7]) (.int 4) = .ok (0, 4) ∧
    binarysearch (intVector t []) (.int 9) = .ok (0, 0) := by
  refine ⟨?_, by cases t <;> rfl, by cases t <;> rfl, by rfl⟩
  intro hs
  obtain ⟨count, start, e, h0, h1, h2, lo, mid, hi⟩ :=
    binarysearch_sorted t xs k (sortedAt_of_sorted xs hs)
  refine ⟨count, start, e, ?_, h0, ?_⟩
  · have := count_of_run k xs start.toNat count.toNat (by omega)
      (fun j a => ne_of_lt (lo j (by omega) (by omega)))
      (fun j a b => mid j (by omega) (by omega))
      (fun j a b => ne_of_gt (hi j (by omega) b))
    omega
  · intro hc
    refine ⟨?_, ?_⟩
    · rw [valAt_of_lt xs start.toNat (by omega), mid start.toNat (by omega) (by omega)]
    · intro j a
      rw [valAt_of_lt xs j (by omega)]
      intro h
      have h3 := lo j a (by omega)
      have h4 : valAt xs j = k := Option.some.inj h
      omega

theorem binarysearch_count_witness :
    ∃ count start : Int,
      binarysearch (intVector .V_INT [2, 2, 4]) (.int 2) = .ok (count, start) ∧
      count = (([2, 2, 4] : List Int).count 2 : Int) ∧ 0 ≤ start ∧
      (0 < count → ([2, 2, 4] : List Int)[start.toNat]? = some 2 ∧
        ∀ j : Nat, (j : Int) < start → ([2, 2, 4] : List Int)[j]? ≠ some 2) :=
  (binarysearch_count .V_INT [2, 2, 4] 2).1 (by decide)

theorem insert_intVector (t : ValueType) (xs : List Int) (k : Int) (start : Int)
    (h0 : 0 ≤ start) (h1 : start ≤ xs.length) :
    insert (intVector t xs) start (.int k) 1
      = .ok (intVector t (xs.take start.toNat ++ k :: xs.drop start.toNat)) := by
  have h2 : ¬ ((1 : Int) < 0 ∨ start < 0 ∨ start > (intVector t xs).len) := by
    rw [len_intVector]; omega
  have h3 : 0 ≤ start ∧ start ≤ (intVector t xs).len ∧ (1 : Int) ≤ max 1 1 := by
    rw [len_intVector]; exact ⟨h0, h1, by simp⟩
  simp only [insert, LVector.insert, h2, h3, if_false, if_true, and_self, pure, Except.pure,
    bind, Except.bind, max_self]
  simp [intVector, List.map_take, List.map_drop]

/-- C3: when `binarysearch` on a vector of `Int`s sorted ascending returns the
count 0, the returned index satisfies `0 ≤ start ≤ len` and the vector with the
key inserted at that index (as the `insert` builtin does) is sorted ascending. -/
theorem binarysearch_insertion_point (t : ValueType) (xs : List Int) (k : Int)
    (hs : xs.Sorted (· ≤ ·)) :
    ∃ count start : Int,
      binarysearch (intVector t xs) (.int k) = .ok (count, start) ∧
      (count = 0 →
        0 ≤ start ∧ start ≤ xs.length ∧
        (xs.take start.toNat ++ k :: xs.drop start.toNat).Sorted (· ≤ ·) ∧
        insert (intVector t xs) start (.int k) 1
          = .ok (intVector t (xs.take start.toNat ++ k :: xs.drop start.toNat))) := by
  obtain ⟨count, start, e, h0, h1, h2, lo, mid, hi⟩ :=
    binarysearch_sorted t xs k (sortedAt_of_sorted xs hs)
  refine ⟨count, start, e, ?_⟩
  intro hc
  subst hc
  refine ⟨h0, by omega, ?_, insert_intVector t xs k start h0 (by omega)⟩
  have hsplit : (xs.take start.toNat ++ xs.drop start.toNat).Pairwise (· ≤ ·) := by
    rw [List.take_append_drop]; exact hs
  obtain ⟨p1, p2, p3⟩ := List.pairwise_append.mp hsplit
  have hlow : ∀ a ∈ xs.take start.toNat, a ≤ k := by
    intro a ha
    obtain ⟨j, hj, rfl⟩ := List.mem_take_iff_getElem.mp ha
    have hj2 : j < xs.length := by omega
    have := lo j (by omega) hj2
    have e1 : valAt xs j = xs[j] := by simp [valAt, List.getElem?_eq_getElem hj2]
    omega
  have hhigh : ∀ b ∈ xs.drop start.toNat, k ≤ b := by
    intro b hb
    obtain ⟨j, hj, rfl⟩ := List.mem_drop_iff_getElem.mp hb
    have := hi (start.toNat + j) (by omega) (by omega)
    have e1 : valAt xs (start.toNat + j) = xs[start.toNat + j] := by
      simp [valAt, List.getElem?_eq_getElem (by omega : start.toNat + j < xs.length)]
    omega
  refine List.pairwise_append.mpr ⟨p1, List.pairwise_cons.mpr ⟨hhigh, p2⟩, ?_⟩
  intro a ha b hb
  rcases List.mem_cons.mp hb with h | h
  · subst h; exact hlow a ha
  · exact p3 a ha b h

theorem binarysearch_insertion_point_witness :
    ∃ count start : Int,
      binarysearch (intVector .V_INT [1, 3, 3, 3, 5, 7]) (.int 4) = .ok (count, start) ∧
      (count = 0 →
        0 ≤ start ∧ start ≤ ([1, 3, 3, 3, 5, 7] : List Int).length ∧
        (([1, 3, 3, 3, 5, 7] : List Int).take start.toNat
          ++ 4 :: ([1, 3, 3, 3, 5, 7] : List Int).drop start.toNat).Sorted (· ≤ ·) ∧
        insert (intVector .V_INT [1, 3, 3, 3, 5, 7]) start (.int 4) 1
          = .ok (intVector .V_INT (([1, 3, 3, 3, 5, 7] : List Int).take start.toNat
              ++ 4 :: ([1, 3, 3, 3, 5, 7] : List Int).drop start.toNat))) :=
  binarysearch_insertion_point .V_INT [1, 3, 3, 3, 5, 7] 4 (by decide)

theorem searchLoop_below (t : ValueType) (xs : List Int) (k : Int)
    (hk : ∀ j : Nat, j < xs.length → k < valAt xs j) :
    ∀ (fuel : Nat) (i size : Int), 0 ≤ i → 0 ≤ size → i + size ≤ xs.length → size < fuel →
      searchLoop (intVector t xs) (.int k) fuel i size = .ok (0, i) := by
  intro fuel
  induction fuel with
  | zero => intro i size h0 h1 h2 h3; omega
  | succ n ih =>
    intro i size h0 h1 h2 h3
    by_cases hz : size = 0
    · subst hz
      unfold searchLoop; simp [pure, Except.pure]
    · rw [searchLoop_step t xs k n i size h0 (by omega) h2,
        if_pos (hk (i + size / 2).toNat (by omega))]
      exact ih i (size / 2) h0 (by omega) (by omega) (by omega)

theorem searchLoop_above (t : ValueType) (xs : List Int) (k : Int)
    (hk : ∀ j : Nat, j < xs.length → valAt xs j < k) :
    ∀ (fuel : Nat) (i size : Int), 0 ≤ i → 0 ≤ size → i + size ≤ xs.length → size < fuel →
      searchLoop (intVector t xs) (.int k) fuel i size = .ok (0, i + size) := by
  intro fuel
  induction fuel with
  | zero => intro i size h0 h1 h2 h3; omega
  | succ n ih =>
    intro i size h0 h1 h2 h3
    by_cases hz : size = 0
    · subst hz
      unfold searchLoop; simp [pure, Except.pure]
    · have hlt := hk (i + size / 2).toNat (by omega)
      rw [searchLoop_step t xs k n i size h0 (by omega) h2, if_neg (by omega), if_pos hlt,
        ih (i + (size / 2 + 1)) (size - (size / 2 + 1)) (by omega) (by omega) (by omega)
          (by omega)]
      congr 2; omega

theorem valAt_mem (xs : List Int) (j : Nat) (h : j < xs.length) : valAt xs j ∈ xs := by
  have e1 : valAt xs j = xs[j] := by simp [valAt, List.getElem?_eq_getElem h]
  rw [e1]; exact List.getElem_mem h

/-- C4: edge cases of `binarysearch`: on the empty vector the result is (0, 0)
for every key; on a non-empty vector of `Int`s, sorted or not, the result is
(0, 0) for a key smaller than every element and (0, len) for a key greater
than every element. -/
theorem binarysearch_edge_cases (t : ValueType) (key : Value) (xs : List Int) (k : Int) :
    binarysearch { type := t, elems := [] } key = .ok (0, 0) ∧
    (xs ≠ [] → (∀ x ∈ xs, k < x) →
      binarysearch (intVector t xs) (.int k) = .ok (0, 0)) ∧
    (xs ≠ [] → (∀ x ∈ xs, x < k) →
      binarysearch (intVector t xs) (.int k) = .ok (0, (xs.length : Int))) := by
  have hl : (intVector t xs).elems.length = xs.length := by simp [intVector]
  refine ⟨by rfl, ?_, ?_⟩
  · intro _ h
    unfold binarysearch
    rw [len_intVector, hl]
    exact searchLoop_below t xs k (fun j hj => h _ (valAt_mem xs j hj)) (xs.length + 1) 0
      xs.length (le_refl _) (by omega) (by omega) (by push_cast; omega)
  · intro _ h
    unfold binarysearch
    rw [len_intVector, hl,
      searchLoop_above t xs k (fun j hj => h _ (valAt_mem xs j hj)) (xs.length + 1) 0
        xs.length (le_refl _) (by omega) (by omega) (by push_cast; omega)]
    simp

theorem binarysearch_edge_cases_witness :
    binarysearch (intVector .V_INT [5, 2, 9]) (.int 1) = .ok (0, 0) ∧
    binarysearch (intVector .V_INT [5, 2, 9]) (.int 10)
      = .ok (0, (([5, 2, 9] : List Int).length : Int)) :=
  ⟨(binarysearch_edge_cases .V_INT .nil [5, 2, 9] 1).2.1 (by decide) (by decide),
   (binarysearch_edge_cases .V_INT .nil [5, 2, 9] 10).2.2 (by decide) (by decide)⟩

/-! ## Slice, replace, insert and remove -/

theorem wrapInt_of_isInt32 (x : Int) (h : isInt32 x) : wrapInt x = x := by
  unfold isInt32 at h
  unfold wrapInt; omega

/-- C7 (as stated, refuted): with a negative size below `-len` the two calls
differ: `slice([1,2,3,4,5], -5, -6)` passes the bounds check with the resolved
size -1 and reads outside the vector, while `slice([1,2,3,4,5], -5, -6 + 5)`
returns `[1,2,3,4]`. -/
theorem slice_negative_size_counterexample :
    slice (intVector .V_INT [1, 2, 3, 4, 5]) (-5) (-6) = .error .OutOfBounds ∧
    slice (intVector .V_INT [1, 2, 3, 4, 5]) (-5) (-6 + 5)
      = .ok (intVector .V_VECTOR [1, 2, 3, 4]) ∧
    slice (intVector .V_INT [1, 2, 3, 4, 5]) (-5) (-6)
      ≠ slice (intVector .V_INT [1, 2, 3, 4, 5]) (-5) (-6 + 5) := by
  refine ⟨by rfl, by rfl, ?_⟩
  intro h
  have h1 : slice (intVector .V_INT [1, 2, 3, 4, 5]) (-5) (-6) = .error .OutOfBounds := by rfl
  have h2 : slice (intVector .V_INT [1, 2, 3, 4, 5]) (-5) (-6 + 5)
      = .ok (intVector .V_VECTOR [1, 2, 3, 4]) := by rfl
  rw [h1, h2] at h
  cases h

/-- C7 (amended): for a vector of length `len`, a negative start `s` with
`s + len ≥ 0` and a negative size `n`, `slice(V, s, n)` has the same outcome as
`slice(V, s + len, n)`, and, when also `n + len ≥ 0`, the same outcome as
`slice(V, s, n + len)`; and `slice([1,2,3,4,5], -2, 2) = [4,5]`. -/
theorem slice_negative_offsets (l : LVector) (s n : Int) :
    (l.len < 2147483648 → s < 0 → 0 ≤ s + l.len → n < 0 →
      slice l s n = slice l (s + l.len) n ∧
      (0 ≤ n + l.len → slice l s n = slice l s (n + l.len))) ∧
    slice (intVector .V_INT [1, 2, 3, 4, 5]) (-2) 2 = .ok (intVector .V_VECTOR [4, 5]) := by
  refine ⟨?_, by rfl⟩
  intro hl hs hs2 hn
  have hlen : 0 ≤ l.len := by unfold LVector.len; omega
  have e1 : wrapInt (l.len + s) = s + l.len := by
    rw [wrapInt_of_isInt32 _ ⟨by omega, by omega⟩]; omega
  refine ⟨?_, ?_⟩
  · have h1 : ¬ (s + l.len < 0) := by omega
    simp only [slice, hs, if_true, h1, if_false, e1]
  · intro hn2
    have h1 : ¬ (n + l.len < 0) := by omega
    have e2 : wrapInt (l.len + n) = n + l.len := by
      rw [wrapInt_of_isInt32 _ ⟨by omega, by omega⟩]; omega
    simp only [slice, hn, if_true, h1, if_false, e2]

theorem slice_negative_offsets_witness :
    slice (intVector .V_INT [1, 2, 3, 4, 5]) (-2) (-4)
      = slice (intVector .V_INT [1, 2, 3, 4, 5]) (-2 + (intVector .V_INT [1, 2, 3, 4, 5]).len) (-4) ∧
    (0 ≤ -4 + (intVector .V_INT [1, 2, 3, 4, 5]).len →
      slice (intVector .V_INT [1, 2, 3, 4, 5]) (-2) (-4)
        = slice (intVector .V_INT [1, 2, 3, 4, 5]) (-2)
            (-4 + (intVector .V_INT [1, 2, 3, 4, 5]).len)) :=
  (slice_negative_offsets (intVector .V_INT [1, 2, 3, 4, 5]) (-2) (-4)).1
    (by decide) (by decide) (by decide) (by decide)

/-- The behaviour of `slice` on resolved arguments whose sum does not leave
the 32-bit range: the range error for a negative start or a window that ends
behind the vector, and the selected run for a window inside the vector. -/
theorem slice_resolved (l : LVector) (s e : Int) (start size : Int)
    (hsize : size = if e < 0 then wrapInt (l.len + e) else e)
    (hstart : start = if s < 0 then wrapInt (l.len + s) else s) :
    (start < 0 → slice l s e = .error (.BuiltinError .sliceRange)) ∧
    (l.len < start + size → -2147483648 ≤ start + size → start + size < 2147483648 →
      slice l s e = .error (.BuiltinError .sliceRange)) ∧
    (l.len < 2147483648 → 0 ≤ start → 0 ≤ size → start + size ≤ l.len →
      slice l s e = .ok { type := .V_VECTOR,
                          elems := (l.elems.drop start.toNat).take size.toNat }) := by
  have hlen : 0 ≤ l.len := by unfold LVector.len; omega
  refine ⟨?_, ?_, ?_⟩
  · intro h
    have h1 : start < 0 ∨ wrapInt (start + size) > l.len := Or.inl h
    rw [hsize, hstart] at h1
    simp only [slice, h1, if_true, bind, Except.bind, throw, throwThe, MonadExceptOf.throw]
  · intro h a b
    have h1 : start < 0 ∨ wrapInt (start + size) > l.len := by
      right; rw [wrapInt_of_isInt32 _ ⟨a, b⟩]; omega
    rw [hsize, hstart] at h1
    simp only [slice, h1, if_true, bind, Except.bind, throw, throwThe, MonadExceptOf.throw]
  · intro hl a b c
    have h1 : ¬ (start < 0 ∨ wrapInt (start + size) > l.len) := by
      rw [wrapInt_of_isInt32 _ ⟨by omega, by omega⟩]; omega
    have h2 : 0 ≤ start ∧ 0 ≤ size ∧ start + size ≤ l.len := ⟨a, b, c⟩
    rw [hsize, hstart] at h1 h2
    simp only [slice, h1, if_false, bind, Except.bind, LVector.append, h2, and_self, if_true,
      NewVector, pure, Except.pure, List.nil_append]
    rw [hsize, hstart]

/-- C8 (failing input): `slice([1,2,3], 1, 2147483647)`: the resolved start 1
and size 2147483647 have a sum greater than `len`, but the 32-bit sum wraps to
a negative number, the bounds test passes, no range error is raised and the
copy reads outside the vector. -/
theorem slice_overflow_failing_input :
    (intVector .V_INT [1, 2, 3]).len < (1 : Int) + 2147483647 ∧
    wrapInt (1 + 2147483647) = -2147483648 ∧
    slice (intVector .V_INT [1, 2, 3]) 1 2147483647 = .error .OutOfBounds ∧
    slice (intVector .V_INT [1, 2, 3]) 1 2147483647 ≠ .error (.BuiltinError .sliceRange) := by
  have h : slice (intVector .V_INT [1, 2, 3]) 1 2147483647 = .error .OutOfBounds := by rfl
  refine ⟨by decide, by decide, h, ?_⟩
  rw [h]
  intro h2
  cases h2

/-- C9: `replace` reports the range error exactly when `i < 0` or `i ≥ len`;
otherwise it returns a vector with the declared element type and the length
of the argument, holding `x` at `i` and the argument's element everywhere
else. -/
theorem replace_contract (l : LVector) (i : Int) (x : Value) :
    ((i < 0 ∨ l.len ≤ i) → replace l i x = .error (.BuiltinError .replaceRange)) ∧
    (0 ≤ i → i < l.len →
      ∃ nv : LVector, replace l i x = .ok nv ∧ nv.type = l.type ∧
        nv.elems.length = l.elems.length ∧ nv.elems[i.toNat]? = some x ∧
        ∀ j : Nat, j ≠ i.toNat → nv.elems[j]? = l.elems[j]?) := by
  have hlen : 0 ≤ l.len := by unfold LVector.len; omega
  refine ⟨?_, ?_⟩
  · intro h
    have h1 : i < 0 ∨ i ≥ l.len := h
    simp only [replace, h1, if_true, bind, Except.bind, throw, throwThe, MonadExceptOf.throw]
  · intro h0 h1
    have h2 : ¬ (i < 0 ∨ i ≥ l.len) := by omega
    have h3 : (0 : Int) ≤ 0 ∧ 0 ≤ l.len ∧ 0 + l.len ≤ l.len := ⟨le_refl _, hlen, by omega⟩
    have h4 : i.toNat < l.elems.length := by unfold LVector.len at h1; omega
    refine ⟨{ type := l.type, elems := l.elems.set i.toNat x }, ?_, rfl, by simp, ?_, ?_⟩
    · have h5 : 0 ≤ i ∧ i < ({ type := l.type, elems := l.elems } : LVector).len := ⟨h0, h1⟩
      simp only [replace, h2, if_false, bind, Except.bind, LVector.append, h3, and_self, if_true,
        NewVector, pure, Except.pure, List.nil_append, LVector.setAt, Int.toNat_zero,
        List.drop_zero]
      have h6 : List.take l.len.toNat l.elems = l.elems := by
        apply List.take_of_length_le; unfold LVector.len; omega
      rw [h6]
      simp only [h5, and_self, if_true]
    · simp [List.getElem?_set, h4]
    · intro j hj
      simp [List.getElem?_set, Ne.symm hj]

theorem replace_contract_witness :
    replace (intVector .V_INT [1, 2, 3]) 3 (.int 9) = .error (.BuiltinError .replaceRange) ∧
    ∃ nv : LVector, replace (intVector .V_INT [1, 2, 3]) 1 (.int 9) = .ok nv ∧
      nv.type = (intVector .V_INT [1, 2, 3]).type ∧
      nv.elems.length = (intVector .V_INT [1, 2, 3]).elems.length ∧
      nv.elems[(1 : Int).toNat]? = some (.int 9) ∧
      ∀ j : Nat, j ≠ (1 : Int).toNat → nv.elems[j]? = (intVector .V_INT [1, 2, 3]).elems[j]? :=
  ⟨(replace_contract (intVector .V_INT [1, 2, 3]) 3 (.int 9)).1 (Or.inr (by decide)),
   (replace_contract (intVector .V_INT [1, 2, 3]) 1 (.int 9)).2 (by decide) (by decide)⟩

/-- C10: inserting `n ≥ 1` copies of `x` at an index `i` with `0 ≤ i ≤ len`
with the `insert` builtin and then calling the `remove` builtin with the same
`i` and `n` succeeds, returns `x` and leaves the vector as it was (the
lengths before and after the insertion being values of `int`). -/
theorem insert_remove_roundtrip (l : LVector) (i n : Int) (x : Value)
    (hi0 : 0 ≤ i) (hi1 : i ≤ l.len) (hn : 1 ≤ n) (hl : l.len + n < 2147483648) :
    ∃ l2 : LVector, insert l i x n = .ok l2 ∧ l2.len = l.len + n ∧
      remove l2 i n = .ok (x, l) := by
  have hlen : 0 ≤ l.len := by unfold LVector.len; omega
  have hmax : max n 1 = n := max_eq_left hn
  have hiN : i.toNat ≤ l.elems.length := by unfold LVector.len at hi1; omega
  have h1 : ¬ (n < 0 ∨ i < 0 ∨ i > l.len) := by omega
  have h2 : 0 ≤ i ∧ i ≤ l.len ∧ 1 ≤ n := ⟨hi0, hi1, hn⟩
  refine ⟨{ type := l.type, elems := l.elems.take i.toNat ++ List.replicate n.toNat x
            ++ l.elems.drop i.toNat }, ?_, ?_, ?_⟩
  · simp only [insert, h1, if_false, bind, Except.bind, LVector.insert, hmax, h2, and_self,
      if_true, pure, Except.pure]
  · unfold LVector.len at *
    simp only [List.length_append, List.length_take, List.length_replicate, List.length_drop]
    omega
  · have hl2 : ({ type := l.type, elems := l.elems.take i.toNat ++ List.replicate n.toNat x
            ++ l.elems.drop i.toNat } : LVector).len = l.len + n := by
      unfold LVector.len at *
      simp only [List.length_append, List.length_take, List.length_replicate, List.length_drop]
      omega
    have h3 : ¬ (n < 0 ∨ n > l.len + n ∨ i < 0 ∨ i > wrapInt (l.len + n - n)) := by
      rw [wrapInt_of_isInt32 _ ⟨by omega, by omega⟩]; omega
    have h4 : 0 ≤ i ∧ 1 ≤ n ∧ i + n ≤ l.len + n := by omega
    have hlt : (List.take i.toNat l.elems).length = i.toNat := by
      rw [List.length_take]; omega
    have h5 : (l.elems.take i.toNat ++ List.replicate n.toNat x ++ l.elems.drop i.toNat)[i.toNat]?
        = some x := by
      rw [List.append_assoc, List.getElem?_append_right (by omega), hlt, Nat.sub_self,
        List.getElem?_append_left (by simp; omega)]
      exact List.getElem?_replicate_of_lt (by omega)
    have h6 : List.take i.toNat (l.elems.take i.toNat ++ List.replicate n.toNat x
          ++ l.elems.drop i.toNat) = l.elems.take i.toNat := by
      rw [List.append_assoc, List.take_left' hlt]
    have h7 : List.drop (i.toNat + n.toNat) (l.elems.take i.toNat ++ List.replicate n.toNat x
          ++ l.elems.drop i.toNat) = l.elems.drop i.toNat := by
      apply List.drop_left'
      simp only [List.length_append, List.length_replicate, hlt]
    simp only [remove, hmax, hl2, h3, if_false, bind, Except.bind, LVector.remove, h4, and_self,
      if_true, h5, h6, h7, List.take_append_drop, pure, Except.pure]

theorem insert_remove_roundtrip_witness :
    ∃ l2 : LVector, insert (intVector .V_INT [1, 2, 3]) 1 (.int 9) 2 = .ok l2 ∧
      l2.len = (intVector .V_INT [1, 2, 3]).len + 2 ∧
      remove l2 1 2 = .ok (.int 9, intVector .V_INT [1, 2, 3]) :=
  insert_remove_roundtrip (intVector .V_INT [1, 2, 3]) 1 2 (.int 9)
    (by decide) (by decide) (by decide) (by decide)

/-! ## Insert and remove: argument checks and results -/

/-- C11 (as stated, refuted): a count of 0 is not rejected:
`insert([1,2,3], 1, 9, 0)` inserts one copy and returns `[1,9,2,3]`. -/
theorem insert_zero_count_counterexample :
    insert (intVector .V_INT [1, 2, 3]) 1 (.int 9) 0 = .ok (intVector .V_INT [1, 9, 2, 3]) ∧
    insert (intVector .V_INT [1, 2, 3]) 1 (.int 9) 0 ≠ .error (.BuiltinError .insertRange) := by
  have h : insert (intVector .V_INT [1, 2, 3]) 1 (.int 9) 0
      = .ok (intVector .V_INT [1, 9, 2, 3]) := by rfl
  refine ⟨h, ?_⟩
  rw [h]
  intro h2
  cases h2

/-- C11 (amended): `insert` reports the range error whenever `index < 0`,
`index > len` or `count < 0`; otherwise it succeeds, a count of 0 standing for
1, and the vector then has `len + max(count, 1)` elements. -/
theorem insert_contract (l : LVector) (i : Int) (a : Value) (n : Int) :
    ((n < 0 ∨ i < 0 ∨ l.len < i) → insert l i a n = .error (.BuiltinError .insertRange)) ∧
    (0 ≤ n → 0 ≤ i → i ≤ l.len →
      ∃ l2 : LVector, insert l i a n = .ok l2 ∧ l2.len = l.len + max n 1 ∧
        l2.type = l.type) := by
  refine ⟨?_, ?_⟩
  · intro h
    have h1 : n < 0 ∨ i < 0 ∨ i > l.len := h
    simp only [insert, h1, if_true, bind, Except.bind, throw, throwThe, MonadExceptOf.throw]
  · intro hn h0 h1
    have h2 : ¬ (n < 0 ∨ i < 0 ∨ i > l.len) := by omega
    have hm : 1 ≤ max n 1 := le_max_right n 1
    have h3 : 0 ≤ i ∧ i ≤ l.len ∧ 1 ≤ max n 1 := ⟨h0, h1, hm⟩
    refine ⟨{ type := l.type, elems := l.elems.take i.toNat
        ++ List.replicate (max n 1).toNat a ++ l.elems.drop i.toNat }, ?_, ?_, rfl⟩
    · simp only [insert, h2, if_false, bind, Except.bind, LVector.insert, h3, and_self,
        if_true, pure, Except.pure]
    · unfold LVector.len at *
      simp only [List.length_append, List.length_take, List.length_replicate, List.length_drop]
      omega

theorem insert_contract_witness :
    insert (intVector .V_INT [1, 2, 3]) 4 (.int 9) 2 = .error (.BuiltinError .insertRange) ∧
    ∃ l2 : LVector, insert (intVector .V_INT [1, 2, 3]) 3 (.int 9) 2 = .ok l2 ∧
      l2.len = (intVector .V_INT [1, 2, 3]).len + max 2 1 ∧
      l2.type = (intVector .V_INT [1, 2, 3]).type :=
  ⟨(insert_contract (intVector .V_INT [1, 2, 3]) 4 (.int 9) 2).1 (Or.inr (Or.inr (by decide))),
   (insert_contract (intVector .V_INT [1, 2, 3]) 3 (.int 9) 2).2 (by decide) (by decide)
     (by decide)⟩

/-- C12 (as stated, refuted): a count of 0 is not rejected:
`remove([1,2,3], 1, 0)` removes one element, returns 2 and leaves `[1,3]`. -/
theorem remove_zero_count_counterexample :
    remove (intVector .V_INT [1, 2, 3]) 1 0 = .ok (.int 2, intVector .V_INT [1, 3]) ∧
    remove (intVector .V_INT [1, 2, 3]) 1 0 ≠ .error (.BuiltinError .removeRange) := by
  have h : remove (intVector .V_INT [1, 2, 3]) 1 0
      = .ok (.int 2, intVector .V_INT [1, 3]) := by rfl
  refine ⟨h, ?_⟩
  rw [h]
  intro h2
  cases h2

/-- The outcome of `remove` on arguments that pass its test. -/
theorem remove_ok (l : LVector) (i n : Int) (h0 : 0 ≤ i) (hn : 0 ≤ n)
    (h1 : i + max n 1 ≤ l.len) (hl : l.len < 2147483648) :
    ∃ x : Value, l.elems[i.toNat]? = some x ∧
      remove l i n = .ok (x, { type := l.type, elems := (l.elems.take i.toNat
        ++ l.elems.drop (i.toNat + (max n 1).toNat)) }) := by
  have hm : 1 ≤ max n 1 := le_max_right n 1
  have hlen : l.len = (l.elems.length : Int) := rfl
  have h2 : ¬ (n < 0 ∨ max n 1 > l.len ∨ i < 0 ∨ i > wrapInt (l.len - max n 1)) := by
    rw [wrapInt_of_isInt32 _ ⟨by omega, by omega⟩]; omega
  have h3 : 0 ≤ i ∧ 1 ≤ max n 1 ∧ i + max n 1 ≤ l.len := ⟨h0, hm, h1⟩
  have h4 : i.toNat < l.elems.length := by omega
  refine ⟨l.elems[i.toNat], List.getElem?_eq_getElem h4, ?_⟩
  simp only [remove, h2, if_false, bind, Except.bind, LVector.remove, h3, and_self, if_true,
    List.getElem?_eq_getElem h4, pure, Except.pure]

/-- C12 (amended): for a vector whose length is a value of `int` and 32-bit
arguments, `remove` reports the range error exactly when the arguments do not
satisfy `0 ≤ index`, `0 ≤ count` and `index + max(count, 1) ≤ len` (a count of
0 standing for 1) and succeeds otherwise: the 32-bit arithmetic of the test
never wraps. -/
theorem remove_check_exact (l : LVector) (i n : Int) (hl : l.len < 2147483648)
    (_hi : isInt32 i) (hn : isInt32 n) :
    (¬ (0 ≤ i ∧ 0 ≤ n ∧ i + max n 1 ≤ l.len) →
      remove l i n = .error (.BuiltinError .removeRange)) ∧
    ((0 ≤ i ∧ 0 ≤ n ∧ i + max n 1 ≤ l.len) →
      ∃ (x : Value) (l2 : LVector), remove l i n = .ok (x, l2)) ∧
    isInt32 (l.len - max n 1) := by
  have hm : 1 ≤ max n 1 := le_max_right n 1
  have hm2 : max n 1 ≤ 2147483647 := by
    unfold isInt32 at hn
    exact max_le (by omega) (by omega)
  have hlen : 0 ≤ l.len := by unfold LVector.len; omega
  have hw : isInt32 (l.len - max n 1) := by
    unfold isInt32; omega
  refine ⟨?_, ?_, hw⟩
  · intro h
    have h2 : n < 0 ∨ max n 1 > l.len ∨ i < 0 ∨ i > wrapInt (l.len - max n 1) := by
      rw [wrapInt_of_isInt32 _ hw]; omega
    simp only [remove, h2, if_true, bind, Except.bind, throw, throwThe, MonadExceptOf.throw]
  · intro h
    obtain ⟨x, _, e⟩ := remove_ok l i n h.1 h.2.1 h.2.2 hl
    exact ⟨x, _, e⟩

theorem remove_check_exact_witness :
    remove (intVector .V_INT [1, 2, 3]) 2147483647 2147483647
      = .error (.BuiltinError .removeRange) ∧
    ∃ (x : Value) (l2 : LVector), remove (intVector .V_INT [1, 2, 3]) 1 2 = .ok (x, l2) :=
  ⟨(remove_check_exact (intVector .V_INT [1, 2, 3]) 2147483647 2147483647 (by decide)
      ⟨by decide, by decide⟩ ⟨by decide, by decide⟩).1 (by decide),
   (remove_check_exact (intVector .V_INT [1, 2, 3]) 1 2 (by decide) ⟨by decide, by decide⟩
      ⟨by decide, by decide⟩).2.1 (by decide)⟩

/-- C13: for `0 ≤ i`, `n ≥ 1` and `i + n ≤ len` the `remove` builtin returns the
element at `i` and leaves the elements before `i` followed by the elements
from `i + n` on, in their order; the length is then `len - n`. -/
theorem remove_result (l : LVector) (i n : Int) (h0 : 0 ≤ i) (hn : 1 ≤ n)
    (h1 : i + n ≤ l.len) (hl : l.len < 2147483648) :
    ∃ (x : Value) (l2 : LVector), l.elems[i.toNat]? = some x ∧
      remove l i n = .ok (x, l2) ∧ l2.type = l.type ∧
      l2.elems = l.elems.take i.toNat ++ l.elems.drop (i.toNat + n.toNat) ∧
      l2.len = l.len - n := by
  have hmax : max n 1 = n := max_eq_left hn
  obtain ⟨x, e1, e2⟩ := remove_ok l i n h0 (by omega) (by rw [hmax]; exact h1) hl
  rw [hmax] at e2
  refine ⟨x, _, e1, e2, rfl, rfl, ?_⟩
  unfold LVector.len at *
  simp only [List.length_append, List.length_take, List.length_drop]
  omega

theorem remove_result_witness :
    ∃ (x : Value) (l2 : LVector),
      (intVector .V_INT [1, 2, 3, 4]).elems[(1 : Int).toNat]? = some x ∧
      remove (intVector .V_INT [1, 2, 3, 4]) 1 2 = .ok (x, l2) ∧
      l2.type = (intVector .V_INT [1, 2, 3, 4]).type ∧
      l2.elems = (intVector .V_INT [1, 2, 3, 4]).elems.take (1 : Int).toNat
        ++ (intVector .V_INT [1, 2, 3, 4]).elems.drop ((1 : Int).toNat + (2 : Int).toNat) ∧
      l2.len = (intVector .V_INT [1, 2, 3, 4]).len - 2 :=
  remove_result (intVector .V_INT [1, 2, 3, 4]) 1 2 (by decide) (by decide) (by decide)
    (by decide)

/-! ## `removeobj` and equality -/

theorem removeobjLoop_spec (o : Ref) :
    ∀ (rest pre : List Ref) (fuel : Nat) (removed : Int), rest.length < fuel →
      removeobjLoop o fuel (pre ++ rest) pre.length removed
        = .ok (removed + (rest.countP (fun e => e.Equal o false) : Int),
            pre ++ rest.filter (fun e => !e.Equal o false)) := by
  intro rest
  induction rest with
  | nil =>
    intro pre fuel removed hf
    cases fuel with
    | zero => simp at hf
    | succ n =>
      unfold removeobjLoop
      simp [pure, Except.pure]
  | cons x rest ih =>
    intro pre fuel removed hf
    cases fuel with
    | zero => simp at hf
    | succ n =>
      have hlen : ((pre.length : Int)) < ((pre ++ x :: rest).length : Int) := by
        simp only [List.length_append, List.length_cons]; push_cast; omega
      have hget : (pre ++ x :: rest)[pre.length]? = some x := by
        rw [List.getElem?_append_right (le_refl _)]; simp
      have hat : refAt (pre ++ x :: rest) pre.length = .ok x := by
        unfold refAt
        simp only [Int.toNat_ofNat, hget, Int.natCast_nonneg, if_true, pure, Except.pure]
      have hf2 : rest.length < n := by simp only [List.length_cons] at hf; omega
      conv => lhs; unfold removeobjLoop
      simp only [hlen, if_true, hat, bind, Except.bind]
      by_cases hp : x.Equal o false = true
      · have hrem : refRemove (pre ++ x :: rest) pre.length 1 = .ok (x, pre ++ rest) := by
          unfold refRemove
          have hc : (0 : Int) ≤ pre.length ∧ (1 : Int) ≤ 1 ∧
              (pre.length : Int) + 1 ≤ ((pre ++ x :: rest).length : Int) := by
            refine ⟨by omega, le_refl _, ?_⟩
            simp only [List.length_append, List.length_cons]; push_cast; omega
          simp only [hc, and_self, if_true, Int.toNat_ofNat, hget, pure, Except.pure]
          have e3 : (1 : Int).toNat = 1 := rfl
          rw [e3, List.take_left, List.drop_append 1]
          rfl
        simp only [hp, if_true, hrem]
        have e1 : ((pre.length : Int) - 1 + 1) = (pre.length : Int) := by omega
        rw [e1, ih pre n (removed + 1) hf2]
        simp only [List.countP_cons, hp, if_true, List.filter_cons, Bool.not_true]
        simp only [Bool.false_eq_true, if_false]
        congr 2
        push_cast; omega
      · have hp2 : x.Equal o false = false := by simpa using hp
        simp only [hp2, Bool.false_eq_true, if_false]
        have e1 : ((pre.length : Int) + 1) = ((pre ++ [x]).length : Int) := by
          simp only [List.length_append, List.length_cons, List.length_nil]; push_cast; omega
        have e2 : pre ++ x :: rest = (pre ++ [x]) ++ rest := by simp
        rw [e1, e2, ih (pre ++ [x]) n removed hf2]
        simp only [List.countP_cons, hp2, Bool.false_eq_true, if_false, List.filter_cons,
          Bool.not_false, if_true, add_zero]
        simp

/-- What `removeobj` computes: the elements for which `Equal(o, false)` holds
are counted and taken out, the others stay in their order. -/
theorem removeobj_spec (elems : List Ref) (o : Ref) :
    removeobj elems o
      = .ok ((elems.countP (fun e => e.Equal o false) : Int),
          elems.filter (fun e => !e.Equal o false)) := by
  unfold removeobj
  have h := removeobjLoop_spec o elems [] (elems.length + 1) 0 (by omega)
  simpa using h

theorem Equal_int (x t : Int) (a b : Nat) (structural : Bool) :
    Ref.Equal { addr := a, val := .int x } { addr := b, val := .int t } structural
      = decide (x = t) := by
  simp [Ref.Equal, Value.structEqual]

theorem Equal_int_other (x : Int) (a : Nat) (o : Ref) (structural : Bool)
    (h : o.val.type ≠ .V_INT) :
    Ref.Equal { addr := a, val := .int x } o structural = false := by
  obtain ⟨b, v⟩ := o
  cases v <;> simp_all [Ref.Equal, Value.structEqual, Value.type]

/-- C14: on a vector of `Int` values `removeobj` does not fail for any target:
for an `Int` target it returns the number of elements equal to it and leaves
the other elements in their order, for a target of another kind it returns 0
and leaves the vector as it is; on `[1,2,2,3,2]` with target 2 it returns 3
and leaves `[1,3]`. -/
theorem removeobj_int (xs : List Int) (t : Int) (a : Nat) (o : Ref) :
    removeobj (intRefs xs) { addr := a, val := .int t }
      = .ok ((xs.count t : Int), intRefs (xs.filter (fun x => x ≠ t))) ∧
    (o.val.type ≠ .V_INT → removeobj (intRefs xs) o = .ok (0, intRefs xs)) ∧
    removeobj (intRefs [1, 2, 2, 3, 2]) { addr := a, val := .int 2 }
      = .ok (3, intRefs [1, 3]) := by
  have key : ∀ ys : List Int, removeobj (intRefs ys) { addr := a, val := .int t }
      = .ok ((ys.count t : Int), intRefs (ys.filter (fun x => x ≠ t))) := by
    intro ys
    rw [removeobj_spec]
    have e1 : List.countP (fun e => e.Equal { addr := a, val := .int t } false) (intRefs ys)
        = ys.count t := by
      unfold intRefs
      rw [List.countP_map, List.count_eq_countP]
      congr 1
    have e2 : List.filter (fun e => !e.Equal { addr := a, val := .int t } false) (intRefs ys)
        = intRefs (ys.filter (fun x => x ≠ t)) := by
      unfold intRefs
      rw [List.filter_map]
      congr 2
      funext x
      simp only [Function.comp, Equal_int]
      by_cases h : x = t <;> simp [h]
    rw [e1, e2]
  refine ⟨key xs, ?_, ?_⟩
  · intro h
    rw [removeobj_spec]
    have e1 : List.countP (fun e => e.Equal o false) (intRefs xs) = 0 := by
      rw [List.countP_eq_zero]
      intro e he
      unfold intRefs at he
      obtain ⟨x, _, rfl⟩ := List.mem_map.mp he
      simp [Equal_int_other x 0 o false h]
    have e2 : List.filter (fun e => !e.Equal o false) (intRefs xs) = intRefs xs := by
      rw [List.filter_eq_self]
      intro e he
      unfold intRefs at he
      obtain ⟨x, _, rfl⟩ := List.mem_map.mp he
      simp [Equal_int_other x 0 o false h]
    rw [e1, e2]
    rfl
  · rfl

theorem removeobj_int_witness :
    removeobj (intRefs [1, 2, 2, 3, 2]) { addr := 5, val := .str [] }
      = .ok (0, intRefs [1, 2, 2, 3, 2]) :=
  (removeobj_int [1, 2, 2, 3, 2] 0 0 { addr := 5, val := .str [] }).2.1 (by decide)

/-- C15 (as stated, refuted): two distinct vector objects with the contents
`[1]` are equal for the builtin `equal`, but `removeobj` with the one as
target does not remove the other. -/
theorem removeobj_structural_counterexample :
    equal { addr := 7, val := .vec .V_VECTOR [.int 1] }
      { addr := 8, val := .vec .V_VECTOR [.int 1] } = .int 1 ∧
    removeobj [{ addr := 7, val := .vec .V_VECTOR [.int 1] }]
      { addr := 8, val := .vec .V_VECTOR [.int 1] }
      = .ok (0, [{ addr := 7, val := .vec .V_VECTOR [.int 1] }]) :=
  ⟨by rfl, by rfl⟩

/-- C15 (amended): `removeobj` removes an element exactly when `Equal(o, false)`,
the `==` of the language, holds for it.  Whatever it removes is equal to the
target for the builtin `equal` as well, and on elements that are not vectors
the two relations agree; a vector element is removed exactly when it is the
same object as the target. -/
theorem removeobj_equality (elems : List Ref) (o e : Ref) (t u : ValueType)
    (xs ys : List Value) (a b : Nat) :
    removeobj elems o
      = .ok ((elems.countP (fun x => x.Equal o false) : Int),
          elems.filter (fun x => !x.Equal o false)) ∧
    (e.Equal o false = true → equal e o = .int 1) ∧
    (e.val.type ≠ .V_VECTOR → e.Equal o false = e.Equal o true) ∧
    (Ref.Equal { addr := a, val := .vec t xs } { addr := b, val := .vec u ys } false
      = decide (a = b)) := by
  refine ⟨removeobj_spec elems o, ?_, ?_, ?_⟩
  · intro h
    obtain ⟨ea, ev⟩ := e
    obtain ⟨oa, ov⟩ := o
    unfold equal
    cases ev <;> cases ov <;> simp_all [Ref.Equal]
  · intro h
    obtain ⟨ea, ev⟩ := e
    obtain ⟨oa, ov⟩ := o
    cases ev <;> cases ov <;> simp_all [Ref.Equal, Value.type]
  · simp [Ref.Equal]

theorem removeobj_equality_witness :
    equal { addr := 0, val := .int 4 } { addr := 0, val := .int 4 } = .int 1 ∧
    Ref.Equal { addr := 0, val := .int 4 } { addr := 3, val := .nil } false
      = Ref.Equal { addr := 0, val := .int 4 } { addr := 3, val := .nil } true :=
  ⟨(removeobj_equality [] { addr := 0, val := .int 4 } { addr := 0, val := .int 4 }
      .V_INT .V_INT [] [] 0 0).2.1 (by rfl),
   (removeobj_equality [] { addr := 3, val := .nil } { addr := 0, val := .int 4 }
      .V_INT .V_INT [] [] 0 0).2.2.1 (by decide)⟩

/-! ## `append`, `copy` and the elementwise transform -/

/-- `nv->append(src, 0, src->len)` copies all of `src`. -/
theorem LVector_append_all (nv src : LVector) :
    nv.append src 0 src.len = .ok { type := nv.type, elems := nv.elems ++ src.elems } := by
  have hlen : 0 ≤ src.len := by unfold LVector.len; omega
  have h : (0 : Int) ≤ 0 ∧ 0 ≤ src.len ∧ 0 + src.len ≤ src.len := ⟨le_refl _, hlen, by omega⟩
  have h2 : List.take src.len.toNat src.elems = src.elems := by
    apply List.take_of_length_le; unfold LVector.len; omega
  simp only [LVector.append, h, and_self, if_true, pure, Except.pure, Int.toNat_zero,
    List.drop_zero, h2]

theorem append_eq (a b : LVector) :
    append a b = .ok { type := .V_VECTOR, elems := a.elems ++ b.elems } := by
  simp only [append, bind, Except.bind, LVector_append_all, NewVector, List.nil_append]

theorem copy_eq (v : LVector) : copy v = .ok { type := v.type, elems := v.elems } := by
  simp only [copy, LVector_append_all, NewVector, List.nil_append]

/-- C16: `append(a, b)` returns a vector of length `len(a) + len(b)` that holds
the elements of `a` in order followed by the elements of `b` in order; with
an empty vector on one side the result has the contents of the other side,
and the contents of nested calls do not depend on the bracketing. -/
theorem append_contents (a b c : LVector) (t : ValueType) :
    (∃ r : LVector, append a b = .ok r ∧ r.elems = a.elems ++ b.elems ∧
      r.len = a.len + b.len ∧
      r.elems.take a.elems.length = a.elems ∧ r.elems.drop a.elems.length = b.elems) ∧
    (∃ r : LVector, append { type := t, elems := [] } b = .ok r ∧ r.elems = b.elems) ∧
    (∃ r : LVector, append a { type := t, elems := [] } = .ok r ∧ r.elems = a.elems) ∧
    (∃ ab bc r1 r2 : LVector, append a b = .ok ab ∧ append ab c = .ok r1 ∧
      append b c = .ok bc ∧ append a bc = .ok r2 ∧ r1.elems = r2.elems ∧
      r1.elems = a.elems ++ b.elems ++ c.elems) := by
  refine ⟨⟨_, append_eq a b, rfl, ?_, ?_, ?_⟩, ⟨_, append_eq _ b, ?_⟩, ⟨_, append_eq a _, ?_⟩,
    ⟨_, _, _, _, append_eq a b, append_eq _ c, append_eq b c, append_eq a _, ?_, rfl⟩⟩
  · unfold LVector.len; simp
  · simp
  · simp
  · simp
  · simp
  · simp

/-- C17 (as stated, refuted): two vectors with the declared element type
`V_INT` are appended to a vector with the declared element type `V_VECTOR`. -/
theorem append_type_counterexample :
    (intVector .V_INT [1]).type = .V_INT ∧ (intVector .V_INT [2]).type = .V_INT ∧
    append (intVector .V_INT [1]) (intVector .V_INT [2]) = .ok (intVector .V_VECTOR [1, 2]) ∧
    (intVector .V_VECTOR [1, 2]).type ≠ .V_INT :=
  ⟨rfl, rfl, by rfl, by decide⟩

/-- C17 (amended): the result of `append(a, b)` always carries the declared
element type `V_VECTOR`, whatever the declared element types of `a` and `b`
are, whereas `copy(v)` carries the declared element type of `v`. -/
theorem append_type (a b v : LVector) :
    (∃ r : LVector, append a b = .ok r ∧ r.type = .V_VECTOR) ∧
    (∃ r : LVector, copy v = .ok r ∧ r.type = v.type ∧ r.elems = v.elems) :=
  ⟨⟨_, append_eq a b, rfl⟩, ⟨_, copy_eq v, rfl, rfl⟩⟩

theorem vectorOpLoop_ok (int2float : Int → Nat) (op : Value → Value) (otype : ValueType) :
    ∀ (elems : List Value) (v : LVector),
      (∀ e ∈ elems, (coerceElem int2float otype e).type = otype) →
      vectorOpLoop int2float op otype elems v
        = .ok { type := v.type,
                elems := v.elems ++ elems.map (fun e => op (coerceElem int2float otype e)) } := by
  intro elems
  induction elems with
  | nil => intro v _; simp [vectorOpLoop, pure, Except.pure]
  | cons f rest ih =>
    intro v h
    have h1 := h f (List.mem_cons_self f rest)
    have h2 : ¬ (coerceElem int2float otype f).type ≠ otype := by simp [h1]
    unfold vectorOpLoop
    simp only [h2, if_false]
    rw [ih _ (fun e he => h e (List.mem_cons_of_mem f he))]
    simp [LVector.push]

theorem vectorOpLoop_error (int2float : Int → Nat) (op : Value → Value) (otype : ValueType) :
    ∀ (elems : List Value) (v : LVector),
      (∃ e ∈ elems, (coerceElem int2float otype e).type ≠ otype) →
      vectorOpLoop int2float op otype elems v = .error (.BuiltinError .numericVector) := by
  intro elems
  induction elems with
  | nil => intro v h; obtain ⟨e, he, _⟩ := h; cases he
  | cons f rest ih =>
    intro v h
    unfold vectorOpLoop
    by_cases h1 : (coerceElem int2float otype f).type ≠ otype
    · rw [if_pos h1]; rfl
    · rw [if_neg h1]
      apply ih
      obtain ⟨e, he, h3⟩ := h
      rcases List.mem_cons.mp he with h4 | h4
      · subst h4; exact absurd h3 h1
      · exact ⟨e, h4, h3⟩

theorem coerceElem_float (int2float : Int → Nat) (e : Value) :
    (coerceElem int2float .V_FLOAT e).type = .V_FLOAT ↔
      (e.type = .V_FLOAT ∨ e.type = .V_INT) := by
  cases e <;> simp [coerceElem, Value.type]

theorem coerceElem_int (int2float : Int → Nat) (e : Value) :
    coerceElem int2float .V_INT e = e := by
  cases e <;> simp [coerceElem]

theorem VECTOROP_vec (int2float : Int → Nat) (op : Value → Value) (otype type : ValueType)
    (elems : List Value) :
    VECTOROP int2float op otype (.vec type elems)
      = vectorOpLoop int2float op otype elems (NewVector (elems.length : Int) type) := rfl

/-- C18: the elementwise transform `VECTOROP` on a vector: a float-typed
operation succeeds exactly when every element is a Float or an Int, an
int-typed operation exactly when every element is an Int.  On success the
result has the declared element type and the length of the argument and holds
at each index the operation applied to the (coerced) element of the argument;
otherwise the outcome is the error and no vector. -/
theorem VECTOROP_contract (int2float : Int → Nat) (op : Value → Value) (type : ValueType)
    (elems : List Value) :
    ((∀ e ∈ elems, e.type = .V_FLOAT ∨ e.type = .V_INT) →
      VECTOROP int2float op .V_FLOAT (.vec type elems)
        = .ok { type := type,
                elems := elems.map (fun e => op (coerceElem int2float .V_FLOAT e)) }) ∧
    (¬ (∀ e ∈ elems, e.type = .V_FLOAT ∨ e.type = .V_INT) →
      VECTOROP int2float op .V_FLOAT (.vec type elems)
        = .error (.BuiltinError .numericVector)) ∧
    ((∀ e ∈ elems, e.type = .V_INT) →
      VECTOROP int2float op .V_INT (.vec type elems)
        = .ok { type := type, elems := elems.map op }) ∧
    (¬ (∀ e ∈ elems, e.type = .V_INT) →
      VECTOROP int2float op .V_INT (.vec type elems)
        = .error (.BuiltinError .numericVector)) ∧
    (elems.map (fun e => op (coerceElem int2float .V_FLOAT e))).length = elems.length ∧
    (elems.map op).length = elems.length := by
  refine ⟨?_, ?_, ?_, ?_, by simp, by simp⟩
  · intro h
    rw [VECTOROP_vec]
    rw [vectorOpLoop_ok int2float op .V_FLOAT elems _
      (fun e he => (coerceElem_float int2float e).mpr (h e he))]
    simp [NewVector]
  · intro h
    rw [VECTOROP_vec]
    apply vectorOpLoop_error
    push_neg at h
    obtain ⟨e, he, h1, h2⟩ := h
    refine ⟨e, he, ?_⟩
    intro h3
    rcases (coerceElem_float int2float e).mp h3 with h4 | h4
    · exact h1 h4
    · exact h2 h4
  · intro h
    rw [VECTOROP_vec]
    rw [vectorOpLoop_ok int2float op .V_INT elems _
      (fun e he => by rw [coerceElem_int]; exact h e he)]
    simp [NewVector, coerceElem_int]
  · intro h
    rw [VECTOROP_vec]
    apply vectorOpLoop_error
    push_neg at h
    obtain ⟨e, he, h1⟩ := h
    exact ⟨e, he, by rw [coerceElem_int]; exact h1⟩

theorem VECTOROP_contract_witness :
    VECTOROP (fun _ => 0) (fun f => f) .V_FLOAT (.vec .V_VECTOR [.float 5, .int 3])
      = .ok { type := .V_VECTOR,
              elems := [Value.float 5, Value.int 3].map
                (fun e => (fun f => f) (coerceElem (fun _ => 0) .V_FLOAT e)) } ∧
    VECTOROP (fun _ => 0) (fun f => f) .V_FLOAT (.vec .V_VECTOR [.float 5, .nil])
      = .error (.BuiltinError .numericVector) ∧
    VECTOROP (fun _ => 0) (fun f => f) .V_INT (.vec .V_VECTOR [.int 5, .int 3])
      = .ok { type := .V_VECTOR, elems := [Value.int 5, Value.int 3].map (fun f => f) } ∧
    VECTOROP (fun _ => 0) (fun f => f) .V_INT (.vec .V_VECTOR [.int 5, .float 3])
      = .error (.BuiltinError .numericVector) :=
  ⟨(VECTOROP_contract (fun _ => 0) (fun f => f) .V_VECTOR [.float 5, .int 3]).1
      (by simp [Value.type]),
   (VECTOROP_contract (fun _ => 0) (fun f => f) .V_VECTOR [.float 5, .nil]).2.1
      (by simp [Value.type]),
   (VECTOROP_contract (fun _ => 0) (fun f => f) .V_VECTOR [.int 5, .int 3]).2.2.1
      (by simp [Value.type]),
   (VECTOROP_contract (fun _ => 0) (fun f => f) .V_VECTOR [.int 5, .float 3]).2.2.2.1
      (by simp [Value.type])⟩

/-! ## `tokenize` -/

/-- The lambda `strspn1` does not return when the first byte of a non-empty
`set` differs from `c`: the loop tests the same byte again and again. -/
theorem strspn1_diverges (c x : Fin 256) (rest : List (Fin 256)) (h : x ≠ c) :
    ∀ fuel : Nat, strspn1 c (x :: rest) fuel = .error .OutOfFuel := by
  intro fuel
  induction fuel with
  | zero => rfl
  | succ n ih =>
    unfold strspn1
    simp only [h, if_false]
    exact ih

/-- C19 (failing input): on the input of the doc string,
`tokenize("; A ; B C; ", ";", " ")`, the model does not return for any amount of
fuel: after the empty first segment the trailing-whitespace scan of the
segment `"A "` calls `strspn1('A', " ")`, which never returns. -/
theorem tokenize_doc_example_diverges (fuel : Nat) :
    tokenize fuel (bytesOf "; A ; B C; ") (bytesOf ";") (bytesOf " ")
      = .error .OutOfFuel := by
  match fuel with
  | 0 => rfl
  | 1 => rfl
  | n + 2 =>
    have h1 : tokenize (n + 2) (bytesOf "; A ; B C; ") (bytesOf ";") (bytesOf " ")
        = ((strspn1 65 [32] (n + 2) >>= fun r =>
            if r then trimEnd (bytesOf "A ; B C; ") [32] (n + 2) n 0 else pure 1) >>= fun e =>
              tokenizeLoop [59] [32] (n + 2) n
                (((bytesOf "A ; B C; ").drop 2).drop 1 |>.drop 1)
                (LVector.push { type := .V_VECTOR, elems := [.str []] }
                  (.str ((bytesOf "A ; B C; ").take e)))) := by
      rfl
    rw [h1, strspn1_diverges 65 32 [] (by decide) (n + 2)]
    rfl

/-! ## `number2string` -/

theorem number2stringLoop_spec (b mc : Int) (hb : 2 ≤ b.toNat) :
    ∀ (fuel i : Nat) (s : List (Fin 256)),
      (Nat.digits b.toNat i).length
        + (mc - s.length - (Nat.digits b.toNat i).length).toNat < fuel →
      number2stringLoop b mc fuel i s
        = .ok ((List.replicate (mc - s.length - (Nat.digits b.toNat i).length).toNat 0
                ++ (Nat.digits b.toNat i).reverse).map digitChar ++ s) := by
  intro fuel
  induction fuel with
  | zero => intro i s h; omega
  | succ n ih =>
    intro i s h
    unfold number2stringLoop
    by_cases hi : i = 0
    · subst hi
      simp only [Nat.digits_zero, List.length_nil, List.reverse_nil, List.append_nil] at h ⊢
      by_cases hs : (s.length : Int) < mc
      · have hc : (0 : Nat) ≠ 0 ∨ (s.length : Int) < mc := Or.inr hs
        rw [if_pos hc, Nat.zero_div, Nat.zero_mod]
        have h2 := ih 0 (digitChar 0 :: s)
        simp only [Nat.digits_zero, List.length_nil, List.reverse_nil, List.append_nil,
          List.length_cons] at h2
        rw [h2 (by push_cast; push_cast at h; omega)]
        have e : (mc - (s.length : Int) - ((0 : Nat) : Int)).toNat
            = (mc - ((s.length + 1 : Nat) : Int) - ((0 : Nat) : Int)).toNat + 1 := by
          push_cast; omega
        rw [e, List.replicate_succ']
        simp
      · have hc : ¬ ((0 : Nat) ≠ 0 ∨ (s.length : Int) < mc) := by
          intro h3; rcases h3 with h3 | h3
          · exact h3 rfl
          · exact hs h3
        rw [if_neg hc]
        have e : (mc - (s.length : Int) - ((0 : Nat) : Int)).toNat = 0 := by
          push_cast; omega
        rw [e]
        simp [pure, Except.pure]
    · have hc : i ≠ 0 ∨ (s.length : Int) < mc := Or.inl hi
      have hd : Nat.digits b.toNat i = (i % b.toNat) :: Nat.digits b.toNat (i / b.toNat) :=
        Nat.digits_def' (by omega) (Nat.pos_of_ne_zero hi)
      rw [if_pos hc]
      rw [hd] at h ⊢
      simp only [List.length_cons] at h ⊢
      have h2 := ih (i / b.toNat) (digitChar (i % b.toNat) :: s)
      simp only [List.length_cons] at h2
      have e : (mc - ((s.length + 1 : Nat) : Int)
            - ((Nat.digits b.toNat (i / b.toNat)).length : Int)).toNat
          = (mc - (s.length : Int)
            - (((Nat.digits b.toNat (i / b.toNat)).length + 1 : Nat) : Int)).toNat := by
        push_cast; omega
      rw [h2 (by rw [e]; omega), e]
      simp

theorem digits_length_le_of_lt_two_pow (b : Nat) (hb : 2 ≤ b) :
    ∀ (k m : Nat), m < 2 ^ k → (Nat.digits b m).length ≤ k := by
  intro k
  induction k with
  | zero =>
    intro m h
    have : m = 0 := by simpa using h
    subst this; simp
  | succ k ih =>
    intro m h
    by_cases hm : m = 0
    · subst hm; simp
    · rw [Nat.digits_def' (by omega) (Nat.pos_of_ne_zero hm), List.length_cons]
      have h1 : m / b ≤ m / 2 := Nat.div_le_div_left hb (by omega)
      have h2 : m / 2 < 2 ^ k := by
        rw [pow_succ] at h
        omega
      have := ih (m / b) (by omega)
      omega

theorem ofDigits_replicate_zero (b k : Nat) : Nat.ofDigits b (List.replicate k 0) = 0 := by
  induction k with
  | zero => rfl
  | succ k ih => rw [List.replicate_succ, Nat.ofDigits_cons, ih]; simp

theorem digitValue_digitChar : ∀ d : Nat, d < 36 → digitValue (digitChar d) = some d := by
  decide

/-- C20: `number2string` reports the range error exactly when `base < 2`,
`base > 36` or `minchars > 32`.  Otherwise it returns the string of the digit
characters of a list of digits below `base` whose value as a numeral in that
base (most significant digit first) is `n` modulo 2^32, made of the
significant digits of that value preceded by as many 0 digits as are needed
to reach `minchars`, so that its length is the maximum of `minchars` and the
number of significant digits. -/
theorem number2string_contract (n b mc : Int) :
    ((b < 2 ∨ b > 36 ∨ mc > 32) →
      number2string n b mc = .error (.BuiltinError .number2stringRange)) ∧
    (2 ≤ b → b ≤ 36 → mc ≤ 32 →
      ∃ ds : List Nat,
        number2string n b mc = .ok (.str (ds.map digitChar)) ∧
        (∀ d ∈ ds, (d : Int) < b) ∧
        (ds.map digitChar).map digitValue = ds.map some ∧
        Nat.ofDigits b.toNat ds.reverse = (n % 4294967296).toNat ∧
        ds = List.replicate
              (mc - ((Nat.digits b.toNat (n % 4294967296).toNat).length : Int)).toNat 0
            ++ (Nat.digits b.toNat (n % 4294967296).toNat).reverse ∧
        (ds.length : Int)
          = max mc ((Nat.digits b.toNat (n % 4294967296).toNat).length : Int)) ∧
    number2string 0 10 0 = .ok (.str []) ∧
    number2string 0 10 (-5) = .ok (.str []) ∧
    number2string 255 16 4 = .ok (.str (bytesOf "00FF")) ∧
    number2string (-1) 16 0 = .ok (.str (bytesOf "FFFFFFFF")) := by
  refine ⟨?_, ?_, by rfl, by rfl, by rfl, by rfl⟩
  · intro h
    simp only [number2string, h, if_true, bind, Except.bind, throw, throwThe,
      MonadExceptOf.throw]
  · intro h2 h36 hmc
    have hb : 2 ≤ b.toNat := by omega
    have hc : ¬ (b < 2 ∨ b > 36 ∨ mc > 32) := by omega
    have hu : (n % 4294967296).toNat < 2 ^ 32 := by
      have := Int.emod_lt_of_pos n (by decide : (0 : Int) < 4294967296)
      have := Int.emod_nonneg n (by decide : (4294967296 : Int) ≠ 0)
      norm_num
      omega
    have hnd := digits_length_le_of_lt_two_pow b.toNat hb 32 _ hu
    have hloop := number2stringLoop_spec b mc hb (32 + mc.toNat + 1) (n % 4294967296).toNat []
    simp only [List.length_nil, Nat.cast_zero, sub_zero, List.append_nil] at hloop
    have hdig : ∀ d ∈ List.replicate
          (mc - ((Nat.digits b.toNat (n % 4294967296).toNat).length : Int)).toNat 0
        ++ (Nat.digits b.toNat (n % 4294967296).toNat).reverse, d < b.toNat := by
      intro d hd
      rcases List.mem_append.mp hd with h | h
      · have := (List.mem_replicate.mp h).2
        omega
      · exact Nat.digits_lt_base (by omega) (List.mem_reverse.mp h)
    refine ⟨_, ?_, ?_, ?_, ?_, rfl, ?_⟩
    · simp only [number2string, hc, if_false, bind, Except.bind, hloop (by omega), pure,
        Except.pure]
    · intro d hd
      have := hdig d hd
      omega
    · rw [List.map_map]
      apply List.map_congr_left
      intro d hd
      have := hdig d hd
      exact digitValue_digitChar d (by omega)
    · rw [List.reverse_append, List.reverse_reverse, List.reverse_replicate,
        Nat.ofDigits_append, ofDigits_replicate_zero, Nat.ofDigits_digits]
      simp
    · simp only [List.length_append, List.length_replicate, List.length_reverse]
      push_cast
      omega

theorem number2string_contract_witness :
    number2string 255 37 4 = .error (.BuiltinError .number2stringRange) ∧
    ∃ ds : List Nat,
      number2string 255 16 4 = .ok (.str (ds.map digitChar)) ∧
      (∀ d ∈ ds, (d : Int) < 16) ∧
      (ds.map digitChar).map digitValue = ds.map some ∧
      Nat.ofDigits (16 : Int).toNat ds.reverse = ((255 : Int) % 4294967296).toNat ∧
      ds = List.replicate
            (4 - ((Nat.digits (16 : Int).toNat ((255 : Int) % 4294967296).toNat).length
              : Int)).toNat 0
          ++ (Nat.digits (16 : Int).toNat ((255 : Int) % 4294967296).toNat).reverse ∧
      (ds.length : Int)
        = max 4 ((Nat.digits (16 : Int).toNat ((255 : Int) % 4294967296).toNat).length : Int) :=
  ⟨(number2string_contract 255 37 4).1 (Or.inr (Or.inl (by decide))),
   (number2string_contract 255 16 4).2.1 (by decide) (by decide) (by decide)⟩

/-! ## Ownership: `top` and `pop` -/

/-- C21 (failing input): a vector object with reference count 1 (held by the
argument alone) whose only element is a heap object with reference count 1
(held by the vector alone).  `l.DEC()` brings the count of the vector to zero,
the vector releases its element, whose count reaches zero and which is freed;
`v.INC()` then works on the freed object.  `pop` on the same heap returns the
element alive with the count 1, and `top` returns it alive when the element
has a second owner. -/
theorem top_sole_owner_failing_input (fuel : Nat) :
    DEC (fuel + 2) [{ refc := 1, freed := false, elems := [.obj 1] },
                    { refc := 1, freed := false, elems := [] }] (.obj 0)
      = .ok [{ refc := 0, freed := true, elems := [.obj 1] },
             { refc := 0, freed := true, elems := [] }] ∧
    top (fuel + 2) [{ refc := 1, freed := false, elems := [.obj 1] },
                    { refc := 1, freed := false, elems := [] }] 0
      = .error .UseAfterFree ∧
    pop (fuel + 2) [{ refc := 1, freed := false, elems := [.obj 1] },
                    { refc := 1, freed := false, elems := [] }] 0
      = .ok (.obj 1, [{ refc := 0, freed := true, elems := [] },
                      { refc := 1, freed := false, elems := [] }]) ∧
    top (fuel + 2) [{ refc := 1, freed := false, elems := [.obj 1] },
                    { refc := 2, freed := false, elems := [] }] 0
      = .ok (.obj 1, [{ refc := 0, freed := true, elems := [.obj 1] },
                      { refc := 2, freed := false, elems := [] }]) :=
  ⟨by rfl, by rfl, by rfl, by rfl⟩

/-! ## Binary search: safety, termination and composite keys -/

theorem KeyCompare_cases_rec (a b : Value) :
    (∃ c, KeyCompare a b true = .ok c) ∨ (∃ m, KeyCompare a b true = .error (.BuiltinError m)) := by
  unfold KeyCompare
  split_ifs with h
  · exact Or.inr ⟨_, rfl⟩
  · split
    · exact Or.inl ⟨_, rfl⟩
    · exact Or.inl ⟨_, rfl⟩
    · exact Or.inl ⟨_, rfl⟩
    · exact Or.inr ⟨_, rfl⟩
    · exact Or.inr ⟨_, rfl⟩

/-- `KeyCompare` either returns or reports one of its two errors. -/
theorem KeyCompare_cases (a b : Value) (rec : Bool) :
    (∃ c, KeyCompare a b rec = .ok c) ∨ (∃ m, KeyCompare a b rec = .error (.BuiltinError m)) := by
  cases rec with
  | true => exact KeyCompare_cases_rec a b
  | false =>
    unfold KeyCompare
    split_ifs with h
    · exact Or.inr ⟨_, rfl⟩
    · split
      · exact Or.inl ⟨_, rfl⟩
      · exact Or.inl ⟨_, rfl⟩
      · exact Or.inl ⟨_, rfl⟩
      · exact KeyCompare_cases_rec _ _
      · exact Or.inr ⟨_, rfl⟩

theorem KeyCompare_vector_like (t u : ValueType) (x y : Value) (xs ys : List Value) :
    KeyCompare (.vec t (x :: xs)) (.vec u (y :: ys)) false = KeyCompare x y true := by
  conv => lhs; unfold KeyCompare
  simp [Value.type]

theorem probe_cases (l : LVector) (key : Value) (i : Int) (h0 : 0 ≤ i) (h1 : i < l.len) :
    (∃ c, probe l key i = .ok c) ∨ (∃ m, probe l key i = .error (.BuiltinError m)) := by
  have h2 : i.toNat < l.elems.length := by unfold LVector.len at h1; omega
  have e : l.elemAt i = .ok l.elems[i.toNat] := by
    simp only [LVector.elemAt, h0, if_true, List.getElem?_eq_getElem h2, pure, Except.pure]
  unfold probe
  rw [e]
  exact KeyCompare_cases key _ false

theorem expandLeft_unfold (l : LVector) (key : Value) (fuel : Nat) (i size : Int) :
    expandLeft l key (fuel + 1) i size =
      if i ≠ 0 then
        probe l key (i - 1) >>= fun comp =>
          if comp = 0 then expandLeft l key fuel (i - 1) (size + 1) else pure (i, size)
      else pure (i, size) := by
  conv => lhs; unfold expandLeft
  unfold probe
  split_ifs
  · cases l.elemAt (i - 1) <;> rfl
  · rfl

theorem expandRight_unfold (l : LVector) (key : Value) (fuel : Nat) (i size : Int) :
    expandRight l key (fuel + 1) i size =
      if i + size < l.len then
        probe l key (i + size) >>= fun comp =>
          if comp = 0 then expandRight l key fuel i (size + 1) else pure (i, size)
      else pure (i, size) := by
  conv => lhs; unfold expandRight
  unfold probe
  split_ifs
  · cases l.elemAt (i + size) <;> rfl
  · rfl

theorem searchLoop_unfold (l : LVector) (key : Value) (fuel : Nat) (i size : Int) :
    searchLoop l key (fuel + 1) i size =
      if size = 0 then pure (size, i)
      else
        probe l key (i + Int.tdiv size 2) >>= fun comp =>
          if comp ≠ 0 then
            if comp < 0 then searchLoop l key fuel i (Int.tdiv size 2)
            else searchLoop l key fuel (i + (Int.tdiv size 2 + 1)) (size - (Int.tdiv size 2 + 1))
          else
            expandLeft l key (l.elems.length + 1) (i + Int.tdiv size 2) 1 >>= fun r1 =>
              expandRight l key (l.elems.length + 1) r1.1 r1.2 >>= fun r2 =>
                pure (r2.2, r2.1) := by
  conv => lhs; unfold searchLoop
  rfl

theorem SafeOutcome_mono (l : LVector) (key : Value) (P Q : Int → Int → Prop)
    (r : Result (Int × Int)) (h : SafeOutcome l key P r) (hpq : ∀ a b, P a b → Q a b) :
    SafeOutcome l key Q r := by
  rcases h with ⟨a, b, e, hp⟩ | h
  · exact Or.inl ⟨a, b, e, hpq a b hp⟩
  · exact Or.inr h

theorem SafeOutcome_error (l : LVector) (key : Value) (P : Int → Int → Prop) (j : Int)
    (m : ErrorMsg) (h0 : 0 ≤ j) (h1 : j < l.len)
    (e : probe l key j = .error (.BuiltinError m)) :
    SafeOutcome l key P (.error (.BuiltinError m)) := by
  refine Or.inr ⟨⟨m, rfl⟩, ?_⟩
  intro hall
  obtain ⟨c, hc⟩ := hall j h0 h1
  rw [e] at hc
  cases hc

theorem expandLeft_safe (l : LVector) (key : Value) :
    ∀ (fuel : Nat) (i size : Int), 0 ≤ i → i ≤ l.len → i < fuel →
      SafeOutcome l key (fun i2 s2 => 0 ≤ i2 ∧ i2 ≤ i ∧ i2 + s2 = i + size)
        (expandLeft l key fuel i size) := by
  intro fuel
  induction fuel with
  | zero => intro i size h0 h1 h2; omega
  | succ n ih =>
    intro i size h0 h1 h2
    rw [expandLeft_unfold]
    by_cases hi : i = 0
    · rw [if_neg (by simpa using hi)]
      exact Or.inl ⟨i, size, rfl, h0, le_refl _, rfl⟩
    · rw [if_pos hi]
      rcases probe_cases l key (i - 1) (by omega) (by omega) with ⟨c, e⟩ | ⟨m, e⟩
      · rw [e]
        simp only [bind, Except.bind]
        by_cases hc : c = 0
        · rw [if_pos hc]
          apply SafeOutcome_mono l key _ _ _ (ih (i - 1) (size + 1) (by omega) (by omega) (by omega))
          intro a b hab
          omega
        · rw [if_neg hc]
          exact Or.inl ⟨i, size, rfl, h0, le_refl _, rfl⟩
      · rw [e]
        exact SafeOutcome_error l key _ (i - 1) m (by omega) (by omega) e

theorem expandRight_safe (l : LVector) (key : Value) :
    ∀ (fuel : Nat) (i size : Int), 0 ≤ i + size → i + size ≤ l.len →
      l.len - (i + size) < fuel →
      SafeOutcome l key (fun i2 s2 => i2 = i ∧ size ≤ s2 ∧ i + s2 ≤ l.len)
        (expandRight l key fuel i size) := by
  intro fuel
  induction fuel with
  | zero => intro i size h0 h1 h2; omega
  | succ n ih =>
    intro i size h0 h1 h2
    rw [expandRight_unfold]
    by_cases hi : i + size < l.len
    · rw [if_pos hi]
      rcases probe_cases l key (i + size) h0 hi with ⟨c, e⟩ | ⟨m, e⟩
      · rw [e]
        simp only [bind, Except.bind]
        by_cases hc : c = 0
        · rw [if_pos hc]
          apply SafeOutcome_mono l key _ _ _
            (ih i (size + 1) (by omega) (by omega) (by omega))
          intro a b hab
          omega
        · rw [if_neg hc]
          exact Or.inl ⟨i, size, rfl, rfl, le_refl _, h1⟩
      · rw [e]
        exact SafeOutcome_error l key _ (i + size) m h0 hi e
    · rw [if_neg hi]
      exact Or.inl ⟨i, size, rfl, rfl, le_refl _, h1⟩

theorem searchLoop_safe (l : LVector) (key : Value) :
    ∀ (fuel : Nat) (i size : Int), 0 ≤ i → 0 ≤ size → i + size ≤ l.len → size < fuel →
      SafeOutcome l key (fun count start => 0 ≤ start ∧ 0 ≤ count ∧ start + count ≤ l.len)
        (searchLoop l key fuel i size) := by
  intro fuel
  induction fuel with
  | zero => intro i size h0 h1 h2 h3; omega
  | succ n ih =>
    intro i size h0 h1 h2 h3
    have hlen : l.len = (l.elems.length : Int) := rfl
    rw [searchLoop_unfold]
    by_cases hz : size = 0
    · rw [if_pos hz]
      exact Or.inl ⟨size, i, rfl, h0, h1, h2⟩
    · rw [if_neg hz]
      have hm : Int.tdiv size 2 = size / 2 := Int.tdiv_eq_ediv (by omega) (by omega)
      rw [hm]
      rcases probe_cases l key (i + size / 2) (by omega) (by omega) with ⟨c, e⟩ | ⟨m, e⟩
      · rw [e]
        simp only [bind, Except.bind]
        by_cases hc : c ≠ 0
        · rw [if_pos hc]
          by_cases hneg : c < 0
          · rw [if_pos hneg]
            exact ih i (size / 2) h0 (by omega) (by omega) (by omega)
          · rw [if_neg hneg]
            exact ih (i + (size / 2 + 1)) (size - (size / 2 + 1)) (by omega) (by omega)
              (by omega) (by omega)
        · rw [if_neg hc]
          rcases expandLeft_safe l key (l.elems.length + 1) (i + size / 2) 1 (by omega)
            (by omega) (by push_cast; omega) with ⟨i1, s1, e1, a1, a2, a3⟩ | ⟨⟨m, e1⟩, hn⟩
          · rw [e1]
            rcases expandRight_safe l key (l.elems.length + 1) i1 s1 (by omega) (by omega)
              (by push_cast; omega) with ⟨i2, s2, e2, b1, b2, b3⟩ | ⟨⟨m, e2⟩, hn⟩
            · simp only [e2]
              subst b1
              exact Or.inl ⟨s2, i2, rfl, a1, by omega, b3⟩
            · simp only [e2]
              exact Or.inr ⟨⟨m, rfl⟩, hn⟩
          · rw [e1]
            exact Or.inr ⟨⟨m, rfl⟩, hn⟩
      · rw [e]
        exact SafeOutcome_error l key _ (i + size / 2) m (by omega) (by omega) e

theorem binarysearch_safe (l : LVector) (key : Value) :
    SafeOutcome l key (fun count start => 0 ≤ start ∧ 0 ≤ count ∧ start + count ≤ l.len)
      (binarysearch l key) := by
  unfold binarysearch
  have hlen : l.len = (l.elems.length : Int) := rfl
  exact searchLoop_safe l key (l.elems.length + 1) 0 l.len (le_refl _) (by omega) (by omega)
    (by push_cast; omega)

/-- C24: the window of `binarysearch` stays inside the vector and the search
ends, for every vector and every key: a turn of the loop entered with
`0 ≤ i`, `0 ≤ size` and `i + size ≤ len` probes inside the vector and
continues with a strictly smaller window inside the vector, so that the loop,
given fuel for `size + 1` turns, neither reads outside the vector nor runs out
of fuel: it returns a pair with `0 ≤ start` and `start + count ≤ len`, or it
is stopped by an error of `KeyCompare`.  So does `binarysearch`, which returns
whenever the comparisons do. -/
theorem binarysearch_window_safe (l : LVector) (key : Value) (fuel : Nat) (i size : Int) :
    (0 ≤ i → 0 < size → i + size ≤ l.len →
      0 ≤ i + Int.tdiv size 2 ∧ i + Int.tdiv size 2 < l.len ∧
      0 ≤ Int.tdiv size 2 ∧ Int.tdiv size 2 < size ∧
      0 ≤ size - (Int.tdiv size 2 + 1) ∧ size - (Int.tdiv size 2 + 1) < size ∧
      (i + (Int.tdiv size 2 + 1)) + (size - (Int.tdiv size 2 + 1)) ≤ l.len) ∧
    (0 ≤ i → 0 ≤ size → i + size ≤ l.len → size < fuel →
      (∃ count start : Int, searchLoop l key fuel i size = .ok (count, start) ∧
        0 ≤ start ∧ 0 ≤ count ∧ start + count ≤ l.len) ∨
      (∃ m, searchLoop l key fuel i size = .error (.BuiltinError m))) ∧
    ((∃ count start : Int, binarysearch l key = .ok (count, start) ∧
        0 ≤ start ∧ 0 ≤ count ∧ start + count ≤ l.len) ∨
      (∃ m, binarysearch l key = .error (.BuiltinError m))) ∧
    ((∀ j : Int, 0 ≤ j → j < l.len → ∃ c, probe l key j = .ok c) →
      ∃ count start : Int, binarysearch l key = .ok (count, start) ∧
        0 ≤ start ∧ 0 ≤ count ∧ start + count ≤ l.len) := by
  refine ⟨?_, ?_, ?_, ?_⟩
  · intro h0 h1 h2
    have hm : Int.tdiv size 2 = size / 2 := Int.tdiv_eq_ediv (by omega) (by omega)
    rw [hm]
    omega
  · intro h0 h1 h2 h3
    rcases searchLoop_safe l key fuel i size h0 h1 h2 h3 with h | ⟨h, _⟩
    · exact Or.inl h
    · exact Or.inr h
  · rcases binarysearch_safe l key with h | ⟨h, _⟩
    · exact Or.inl h
    · exact Or.inr h
  · intro hp
    rcases binarysearch_safe l key with h | ⟨_, h⟩
    · exact h
    · exact absurd hp h

theorem binarysearch_window_safe_witness :
    (∃ count start : Int,
        searchLoop (intVector .V_INT [5, 1, 4]) (.int 4) 3 1 2 = .ok (count, start) ∧
        0 ≤ start ∧ 0 ≤ count ∧ start + count ≤ (intVector .V_INT [5, 1, 4]).len) ∨
      (∃ m, searchLoop (intVector .V_INT [5, 1, 4]) (.int 4) 3 1 2
        = .error (.BuiltinError m)) :=
  (binarysearch_window_safe (intVector .V_INT [5, 1, 4]) (.int 4) 3 1 2).2.1
    (by decide) (by decide) (by decide) (by decide)

theorem searchLoops_congr (l l2 : LVector) (key key2 : Value)
    (hlen : l.elems.length = l2.elems.length)
    (hp : ∀ i : Int, probe l key i = probe l2 key2 i) :
    (∀ (fuel : Nat) (i size : Int),
      expandLeft l key fuel i size = expandLeft l2 key2 fuel i size) ∧
    (∀ (fuel : Nat) (i size : Int),
      expandRight l key fuel i size = expandRight l2 key2 fuel i size) ∧
    (∀ (fuel : Nat) (i size : Int),
      searchLoop l key fuel i size = searchLoop l2 key2 fuel i size) := by
  have hl : l.len = l2.len := by unfold LVector.len; rw [hlen]
  have hL : ∀ (fuel : Nat) (i size : Int),
      expandLeft l key fuel i size = expandLeft l2 key2 fuel i size := by
    intro fuel
    induction fuel with
    | zero => intro i size; rfl
    | succ n ih =>
      intro i size
      rw [expandLeft_unfold, expandLeft_unfold, hp]
      simp only [ih]
  have hR : ∀ (fuel : Nat) (i size : Int),
      expandRight l key fuel i size = expandRight l2 key2 fuel i size := by
    intro fuel
    induction fuel with
    | zero => intro i size; rfl
    | succ n ih =>
      intro i size
      rw [expandRight_unfold, expandRight_unfold, hp, hl]
      simp only [ih]
  refine ⟨hL, hR, ?_⟩
  intro fuel
  induction fuel with
  | zero => intro i size; rfl
  | succ n ih =>
    intro i size
    rw [searchLoop_unfold, searchLoop_unfold, hp, hlen]
    simp only [ih, hL, hR]

theorem elemAt_map {α : Type} (t : ValueType) (f : α → Value) (xs : List α) (i : Int) :
    LVector.elemAt { type := t, elems := xs.map f } i
      = if 0 ≤ i then
          match xs[i.toNat]? with
          | some x => .ok (f x)
          | none => .error .OutOfBounds
        else .error .OutOfBounds := by
  unfold LVector.elemAt
  by_cases h : 0 ≤ i
  · simp only [h, if_true, List.getElem?_map]
    cases xs[i.toNat]? <;> rfl
  · simp only [h, if_false]
    rfl

theorem probe_rowVector (t t2 tk : ValueType) (rows : List (ValueType × Int × List Value))
    (k : Int) (krest : List Value) (i : Int) :
    probe (rowVector t rows) (.vec tk (.int k :: krest)) i
      = probe (intVector t2 (rows.map (fun r => r.2.1))) (.int k) i := by
  unfold probe rowVector intVector
  rw [List.map_map, elemAt_map, elemAt_map]
  by_cases h : 0 ≤ i
  · simp only [h, if_true]
    cases rows[i.toNat]? with
    | none => rfl
    | some r =>
      simp only [bind, Except.bind, Function.comp]
      rw [(KeyCompare_vector_like tk r.1 (.int k) (.int r.2.1) krest r.2.2)]
      rw [KeyCompare_int, KeyCompare_int]
  · simp only [h, if_false]
    rfl

theorem binarysearch_intVector_returns (t : ValueType) (xs : List Int) (k : Int) :
    ∃ count start : Int, binarysearch (intVector t xs) (.int k) = .ok (count, start) ∧
      0 ≤ start ∧ 0 ≤ count ∧ start + count ≤ (xs.length : Int) := by
  rcases binarysearch_safe (intVector t xs) (.int k) with h | ⟨_, h⟩
  · rw [len_intVector] at h
    exact h
  · exfalso
    apply h
    intro j h0 h1
    rw [len_intVector] at h1
    exact ⟨_, probe_intVector t xs k j h0 h1⟩

/-- C22: on a vector whose elements are non-empty vectors with an `Int` first
element, with a key that is a non-empty vector with the `Int` first element
`k`, `binarysearch` returns, and its outcome is the outcome of `binarysearch`
on the vector of the first elements with the scalar key `k`: the declared
element types and the other elements of the rows and of the key do not
matter. -/
theorem binarysearch_composite_key (t t2 tk : ValueType)
    (rows : List (ValueType × Int × List Value)) (k : Int) (krest : List Value) :
    binarysearch (rowVector t rows) (.vec tk (.int k :: krest))
      = binarysearch (intVector t2 (rows.map (fun r => r.2.1))) (.int k) ∧
    ∃ count start : Int,
      binarysearch (rowVector t rows) (.vec tk (.int k :: krest)) = .ok (count, start) ∧
      0 ≤ start ∧ 0 ≤ count ∧ start + count ≤ (rows.length : Int) := by
  have hlen : (rowVector t rows).elems.length
      = (intVector t2 (rows.map (fun r => r.2.1))).elems.length := by
    simp [rowVector, intVector]
  have hl : (rowVector t rows).len = (intVector t2 (rows.map (fun r => r.2.1))).len := by
    unfold LVector.len; rw [hlen]
  have e : binarysearch (rowVector t rows) (.vec tk (.int k :: krest))
      = binarysearch (intVector t2 (rows.map (fun r => r.2.1))) (.int k) := by
    unfold binarysearch
    rw [hlen, hl]
    exact (searchLoops_congr _ _ _ _ hlen
      (fun i => probe_rowVector t t2 tk rows k krest i)).2.2 _ _ _
  refine ⟨e, ?_⟩
  rw [e]
  have h := binarysearch_intVector_returns t2 (rows.map (fun r => r.2.1)) k
  rw [List.length_map] at h
  exact h

/-! ## `KeyCompare` on strings -/

theorem cstr_cons (x : Fin 256) (xs : List (Fin 256)) :
    cstr (x :: xs) = if x = 0 then [] else x :: cstr xs := by
  unfold cstr
  by_cases h : x = 0
  · simp [h]
  · simp [h, List.takeWhile_cons]

theorem fin_val_pos (x : Fin 256) (h : x ≠ 0) : 0 < (x.val : Int) := by
  have : x.val ≠ 0 := fun h2 => h (Fin.ext h2)
  omega

theorem sign_strcmp (a : List (Fin 256)) :
    ∀ b : List (Fin 256), Int.sign (strcmp a b) = lexCompare (cstr a) (cstr b) := by
  induction a with
  | nil =>
    intro b
    cases b with
    | nil => rfl
    | cons y ys =>
      unfold strcmp
      rw [cstr_cons]
      by_cases hy : y = 0
      · subst hy; rfl
      · rw [if_neg hy]
        have := fin_val_pos y hy
        have e : cstr ([] : List (Fin 256)) = [] := rfl
        rw [e]
        unfold lexCompare
        exact Int.sign_eq_neg_one_of_neg (by omega)
  | cons x xs ih =>
    intro b
    cases b with
    | nil =>
      unfold strcmp
      rw [cstr_cons]
      by_cases hx : x = 0
      · subst hx; rfl
      · rw [if_neg hx]
        have := fin_val_pos x hx
        have e : cstr ([] : List (Fin 256)) = [] := rfl
        rw [e]
        unfold lexCompare
        exact Int.sign_eq_one_of_pos (by omega)
    | cons y ys =>
      unfold strcmp
      rw [cstr_cons, cstr_cons]
      by_cases hxy : x = y
      · subst hxy
        simp only [ne_eq, not_true_eq_false, if_false]
        by_cases hx : x = 0
        · subst hx; rfl
        · have hv : ¬ x.val = 0 := fun h2 => hx (Fin.ext h2)
          simp only [if_neg hv, if_neg hx]
          unfold lexCompare
          rw [if_neg (lt_irrefl x), if_neg (lt_irrefl x)]
          exact ih ys
      · have hne : x ≠ y := hxy
        rw [if_pos hne]
        have hvne : x.val ≠ y.val := fun h2 => hxy (Fin.ext h2)
        by_cases hx : x = 0
        · have hy : y ≠ 0 := fun h2 => hxy (by rw [hx, h2])
          rw [if_pos hx, if_neg hy]
          have := fin_val_pos y hy
          subst hx
          unfold lexCompare
          exact Int.sign_eq_neg_one_of_neg (by simp; omega)
        · rw [if_neg hx]
          by_cases hy : y = 0
          · rw [if_pos hy]
            have := fin_val_pos x hx
            subst hy
            unfold lexCompare
            exact Int.sign_eq_one_of_pos (by simp; omega)
          · rw [if_neg hy]
            unfold lexCompare
            by_cases hlt : x < y
            · rw [if_pos hlt]
              have : x.val < y.val := hlt
              exact Int.sign_eq_neg_one_of_neg (by omega)
            · rw [if_neg hlt]
              have h2 : y < x := by
                have : ¬ x.val < y.val := hlt
                show y.val < x.val
                omega
              rw [if_pos h2]
              have : y.val < x.val := h2
              exact Int.sign_eq_one_of_pos (by omega)

theorem lexCompare_eq_zero (s : List (Fin 256)) :
    ∀ t : List (Fin 256), lexCompare s t = 0 ↔ s = t := by
  induction s with
  | nil => intro t; cases t <;> simp [lexCompare]
  | cons x xs ih =>
    intro t
    cases t with
    | nil => simp [lexCompare]
    | cons y ys =>
      unfold lexCompare
      by_cases h1 : x < y
      · have : x ≠ y := ne_of_lt h1
        simp [h1, this]
      · by_cases h2 : y < x
        · have : x ≠ y := (ne_of_lt h2).symm
          simp [h1, h2, this]
        · have : x = y := le_antisymm (not_lt.mp h2) (not_lt.mp h1)
          simp [h1, h2, this, ih ys]

theorem lexCompare_eq_neg_one (s : List (Fin 256)) :
    ∀ t : List (Fin 256), lexCompare s t = -1 ↔ List.lt s t := by
  induction s with
  | nil =>
    intro t
    cases t with
    | nil =>
      unfold lexCompare
      constructor
      · intro h; omega
      · intro h; cases h
    | cons y ys =>
      unfold lexCompare
      exact ⟨fun _ => List.lt.nil y ys, fun _ => rfl⟩
  | cons x xs ih =>
    intro t
    cases t with
    | nil =>
      unfold lexCompare
      constructor
      · intro h; omega
      · intro h; cases h
    | cons y ys =>
      unfold lexCompare
      by_cases h1 : x < y
      · rw [if_pos h1]
        exact ⟨fun _ => List.lt.head xs ys h1, fun _ => rfl⟩
      · rw [if_neg h1]
        by_cases h2 : y < x
        · rw [if_pos h2]
          constructor
          · intro h; omega
          · intro h
            cases h with
            | head _ _ h3 => exact absurd h3 h1
            | tail _ h3 _ => exact absurd h2 h3
        · rw [if_neg h2]
          constructor
          · intro h
            exact List.lt.tail h1 h2 ((ih ys).mp h)
          · intro h
            cases h with
            | head _ _ h3 => exact absurd h3 h1
            | tail _ _ h3 => exact (ih ys).mpr h3

theorem lexCompare_swap (s : List (Fin 256)) :
    ∀ t : List (Fin 256), lexCompare t s = - lexCompare s t := by
  induction s with
  | nil => intro t; cases t <;> rfl
  | cons x xs ih =>
    intro t
    cases t with
    | nil => rfl
    | cons y ys =>
      unfold lexCompare
      by_cases h1 : x < y
      · have h2 : ¬ y < x := not_lt.mpr (le_of_lt h1)
        rw [if_pos h1, if_neg h2, if_pos h1]
        rfl
      · by_cases h2 : y < x
        · rw [if_neg h1, if_pos h2, if_pos h2, if_neg h1]
        · rw [if_neg h1, if_neg h2, if_neg h2, if_neg h1]
          exact ih ys

theorem cstr_of_no_zero (a : List (Fin 256)) (h : ∀ x ∈ a, x ≠ 0) : cstr a = a := by
  induction a with
  | nil => rfl
  | cons x xs ih =>
    rw [cstr_cons, if_neg (h x (List.mem_cons_self x xs)),
      ih (fun y hy => h y (List.mem_cons_of_mem x hy))]

/-- C23 (as stated, refuted): the strings `"a\0b"` and `"a\0c"` have different
contents, but `KeyCompare` returns 0 for them: `strcmp` stops at the zero
byte. -/
theorem KeyCompare_string_counterexample :
    KeyCompare (.str [97, 0, 98]) (.str [97, 0, 99]) false = .ok 0 ∧
    ([97, 0, 98] : List (Fin 256)) ≠ [97, 0, 99] := by
  refine ⟨by rfl, by decide⟩

/-- C23 (amended): on two strings `KeyCompare` returns the result of `strcmp`,
which orders them by the lexicographic comparison of their bytes up to the
first zero byte: the result is zero exactly when these prefixes are
identical, negative exactly when the prefix of the first is lexicographically
smaller and positive exactly when it is greater.  For strings without a zero
byte the prefixes are the full contents. -/
theorem KeyCompare_string (a b : List (Fin 256)) (rec : Bool) :
    ∃ c : Int, KeyCompare (.str a) (.str b) rec = .ok c ∧
      (c = 0 ↔ cstr a = cstr b) ∧
      (c < 0 ↔ List.lt (cstr a) (cstr b)) ∧
      (0 < c ↔ List.lt (cstr b) (cstr a)) ∧
      ((∀ x ∈ a, x ≠ 0) → (∀ x ∈ b, x ≠ 0) →
        (c = 0 ↔ a = b) ∧ (c < 0 ↔ List.lt a b) ∧ (0 < c ↔ List.lt b a)) := by
  have hk : KeyCompare (.str a) (.str b) rec = .ok (strcmp a b) := by
    unfold KeyCompare
    simp [Value.type, pure, Except.pure]
  have hs := sign_strcmp a b
  have h0 : strcmp a b = 0 ↔ cstr a = cstr b := by
    rw [← lexCompare_eq_zero, ← hs, Int.sign_eq_zero_iff_zero]
  have h1 : strcmp a b < 0 ↔ List.lt (cstr a) (cstr b) := by
    rw [← lexCompare_eq_neg_one, ← hs, Int.sign_eq_neg_one_iff_neg]
  have h2 : 0 < strcmp a b ↔ List.lt (cstr b) (cstr a) := by
    rw [← lexCompare_eq_neg_one, lexCompare_swap, ← hs]
    constructor
    · intro h; rw [Int.sign_eq_one_of_pos h]
    · intro h
      have : (strcmp a b).sign = 1 := by omega
      exact Int.sign_eq_one_iff_pos.mp this
  refine ⟨strcmp a b, hk, h0, h1, h2, ?_⟩
  intro ha hb
  rw [cstr_of_no_zero a ha, cstr_of_no_zero b hb] at h0 h1 h2
  exact ⟨h0, h1, h2⟩

theorem KeyCompare_string_witness :
    ∃ c : Int, KeyCompare (.str [97, 98]) (.str [97, 99]) false = .ok c ∧
      (c = 0 ↔ ([97, 98] : List (Fin 256)) = [97, 99]) ∧
      (c < 0 ↔ List.lt ([97, 98] : List (Fin 256)) [97, 99]) ∧
      (0 < c ↔ List.lt ([97, 99] : List (Fin 256)) [97, 98]) := by
  obtain ⟨c, hc, _, _, _, h⟩ := KeyCompare_string [97, 98] [97, 99] false
  exact ⟨c, hc, h (by simp) (by simp)⟩

/-! ## `tokenize`: termination -/

/-- The trailing-whitespace scan of `tokenize` does not return when it starts
behind a non-empty segment whose first byte differs from the first byte of the
whitespace set. -/
theorem trimEnd_diverges (p ws : List (Fin 256)) (w c0 : Fin 256) (rest : List (Fin 256))
    (fuel0 : Nat) (hp : p = c0 :: rest) (hc : c0 ≠ w) :
    ∀ (fuel e : Nat), 1 ≤ e → e ≤ p.length →
      trimEnd p (w :: ws) fuel0 fuel e = .error .OutOfFuel := by
  intro fuel
  induction fuel with
  | zero => intro e _ _; rfl
  | succ n ih =>
    intro e h1 h2
    unfold trimEnd
    have hpos : e > 0 := by omega
    have hlt : e - 1 < p.length := by omega
    rw [if_pos hpos, List.getElem?_eq_getElem hlt]
    simp only []
    by_cases hw : w = p[e - 1]
    · cases fuel0 with
      | zero => rfl
      | succ f =>
        have e1 : strspn1 p[e - 1] (w :: ws) (f + 1) = .ok true := by
          unfold strspn1
          simp only [hw, if_true]
          rfl
        rw [e1]
        simp only [bind, Except.bind, if_true]
        apply ih (e - 1) _ (by omega)
        by_contra hne
        have he : e - 1 = 0 := by omega
        have h0 : p[e - 1] = c0 := by
          subst hp
          simp [he]
        exact hc (by rw [← h0, ← hw])
    · rw [strspn1_diverges _ _ _ hw]
      rfl

theorem head_drop_takeWhile (f : Fin 256 → Bool) :
    ∀ (l : List (Fin 256)) (c : Fin 256) (rest : List (Fin 256)),
      l.drop (l.takeWhile f).length = c :: rest → f c = false := by
  intro l
  induction l with
  | nil => intro c rest h; simp at h
  | cons x xs ih =>
    intro c rest h
    by_cases hx : f x = true
    · rw [List.takeWhile_cons_of_pos hx] at h
      simp only [List.length_cons, List.drop_succ_cons] at h
      exact ih c rest h
    · rw [List.takeWhile_cons_of_neg hx] at h
      simp only [List.length_nil, List.drop_zero, List.cons.injEq] at h
      rw [← h.1]
      simpa using hx

/-- When the whitespace set is not empty and the input, behind its leading
whitespace, begins with a byte that is not a delimiter, `tokenize` does not
return, whatever the fuel: the trailing-whitespace scan of the first segment
reaches a byte that differs from the first whitespace byte, and `strspn1` does
not return on it. -/
theorem tokenize_diverges (fuel : Nat) (s delims whitespace : List (Fin 256))
    (w c : Fin 256) (ws rest : List (Fin 256))
    (hws : cstr whitespace = w :: ws)
    (hp : (cstr s).drop (strspn (cstr s) (cstr whitespace)) = c :: rest)
    (hd : (cstr delims).contains c = false) :
    tokenize fuel s delims whitespace = .error .OutOfFuel := by
  have hcw : c ≠ w := by
    have h1 := head_drop_takeWhile (fun x => (cstr whitespace).contains x) (cstr s) c rest hp
    intro h2
    rw [hws, h2] at h1
    simp at h1
  unfold tokenize
  simp only [hp]
  cases fuel with
  | zero => rfl
  | succ n =>
    unfold tokenizeLoop
    have hne : (c :: rest) ≠ [] := by simp
    rw [if_pos hne]
    have hcs : 1 ≤ strcspn (c :: rest) (cstr delims) ∧
        strcspn (c :: rest) (cstr delims) ≤ (c :: rest).length := by
      unfold strcspn
      refine ⟨?_, (List.takeWhile_sublist _).length_le⟩
      simp only [List.takeWhile_cons, hd, Bool.not_false, if_true, List.length_cons]
      omega
    dsimp only
    rw [hws, trimEnd_diverges (c :: rest) ws w c rest (n + 1) rfl hcw (n + 1) _ hcs.1 hcs.2]
    rfl

/-- C25 (failing input): `tokenize("A", ";", " ")` does not return for any amount
of fuel: the whitespace set is not empty and its first byte differs from the
last byte of the segment `"A"`, so the call `strspn1('A', " ")` of the
trailing-whitespace scan never returns. -/
theorem tokenize_not_terminating (fuel : Nat) :
    tokenize fuel (bytesOf "A") (bytesOf ";") (bytesOf " ") = .error .OutOfFuel ∧
    strspn1 65 (bytesOf " ") fuel = .error .OutOfFuel :=
  ⟨tokenize_diverges fuel (bytesOf "A") (bytesOf ";") (bytesOf " ") 32 65 [] [] rfl rfl rfl,
   strspn1_diverges 65 32 [] (by decide) fuel⟩

/-! ## `slice`: the window that is copied -/

/-- C26 (failing input): `slice([1,2,3,4,5], 0, -6)`: the size is resolved to
`5 + -6 = -1`, the bounds test `start < 0 || start + size > len` passes with
start 0 and size -1, no range error is raised, and the vector is requested
with the capacity -1 and filled by a copy of -1 elements. -/
theorem slice_unchecked_size_failing_input :
    wrapInt ((intVector .V_INT [1, 2, 3, 4, 5]).len + (-6)) = -1 ∧
    ¬ ((0 : Int) < 0 ∨ wrapInt (0 + (-1)) > (intVector .V_INT [1, 2, 3, 4, 5]).len) ∧
    slice (intVector .V_INT [1, 2, 3, 4, 5]) 0 (-6) = .error .OutOfBounds ∧
    slice (intVector .V_INT [1, 2, 3, 4, 5]) 0 (-6) ≠ .error (.BuiltinError .sliceRange) := by
  have h : slice (intVector .V_INT [1, 2, 3, 4, 5]) 0 (-6) = .error .OutOfBounds := by rfl
  refine ⟨by decide, by decide, h, ?_⟩
  rw [h]
  intro h2
  cases h2

end Lobster
